import Mathlib

/-!
# Shallow embedding of the `confertus` dynamic bit vector

This file embeds the data model and the operations of the Rust crate
(`src/leaf/mod.rs`, `src/node.rs`, `src/dynamic_vector/mod.rs`,
`src/dynamic_vector/impls.rs`) in Lean 4 and settles the claims about it.

Modelling conventions:

* `u64` values are `Nat` kept below `2^64`; every operation that can change
  the magnitude is masked with `% 2^64` where Rust wraps, and guarded where
  Rust panics.
* Rust panics (`unwrap` on `None`, `unreachable`, vector index out of
  bounds, checked arithmetic overflow/underflow, shift amounts that are at
  least the bit width) are modelled as the failure `Fail.died`.  Rust
  `Result::Err` values (which some callers catch and recover from) are
  modelled as the distinct failure `Fail.rerr`.
* `#[cfg(debug_assertions)]`-only diagnostics (`println`, `viz`,
  `debug_assert`, the `validate` call in `push`) are omitted: they do not
  change the state, and the release build of the crate compiles them away.
  Of the two `#[cfg]` variants of `DynBitVec::insert`/`delete` the
  `not(debug_assertions)` ones are embedded.
* Recursive tree walks in the Rust source recurse through an index arena, so
  the Lean versions take a fuel argument; running out of fuel is modelled as
  `Fail.died` (in the source the corresponding execution does not
  terminate or overflows the stack).  All theorems below evaluate the
  operations on concrete states with ample fuel.
* Rust method resolution picks the inherent `Leaf::insert`, `Leaf::delete`,
  `Leaf::push`, `Leaf::rank`, `Leaf::select`, `Leaf::flip` (from
  `leaf/mod.rs`) for the calls made by `DynamicBitVector`, not the checked
  `DynBitVec for Leaf` trait methods from `leaf/trait_impls.rs`; both
  variants are embedded under distinct names.
* `Leaf::select` dispatches on CPU capabilities; the embedded semantics is
  the `select_pdep` path (PDEP followed by TZCNT), which is the path taken
  on the x86-64-with-BMI hardware the crate targets.  `_tzcnt_u64 0 = 64`.
-/

namespace Confertus

/-- Outcome of a fallible/panicking Rust computation: `rerr` is a caught-able
`Result::Err`, `died` is a panic (or divergence). -/
inductive Fail : Type where
  | rerr : Fail
  | died : Fail
deriving DecidableEq, Repr

/-- Result monad for the embedding: success or a `Fail`. -/
inductive Res (α : Type) : Type where
  | ok : α → Res α
  | fail : Fail → Res α
deriving DecidableEq, Repr

instance : Monad Res where
  pure := Res.ok
  bind := fun x f => match x with
    | .ok a => f a
    | .fail e => .fail e

/-- Rust `Option::unwrap`: panics on `None`. -/
def unwrapO {α : Type} : Option α → Res α
  | none => .fail .died
  | some a => .ok a

/-- Fuelled fixpoint for the index-arena recursions of the source.  The
step function receives the remaining fuel (to hand to other fuelled
helpers, mirroring the call structure of the source) and the recursive
call; exhausted fuel is the failure `Fail.died` (the corresponding source
execution does not terminate or overflows the stack).  Built directly on
`Nat.rec` so that kernel reduction unfolds it lazily. -/
def fuelFix {α β : Type} (F : Nat → (α → Res β) → α → Res β) (fuel : Nat) :
    α → Res β :=
  @Nat.rec (fun _ => α → Res β) (fun _ => .fail .died) (fun n ih => F n ih)
    fuel

/-- `Option`-valued variant of `fuelFix` for the ground-truth walks. -/
def fuelFixO {α β : Type} (F : Nat → (α → Option β) → α → Option β)
    (fuel : Nat) : α → Option β :=
  @Nat.rec (fun _ => α → Option β) (fun _ => none) (fun n ih => F n ih) fuel

/-- Checked (debug-semantics) `usize`/`u8` subtraction: panics on underflow. -/
def subU (a b : Nat) : Res Nat :=
  if b ≤ a then .ok (a - b) else .fail .died

/-- `u64` truncation. -/
def mask64 (n : Nat) : Nat := n % 2 ^ 64

/-- Checked `u64` left shift (Rust `<<` panics when the amount is ≥ 64). -/
def shlU64 (a b : Nat) : Res Nat :=
  if b < 64 then .ok (mask64 (a <<< b)) else .fail .died

/-- Checked `u64` right shift. -/
def shrU64 (a b : Nat) : Res Nat :=
  if b < 64 then .ok (a >>> b) else .fail .died

/-- `u64::MAX`. -/
def U64MAX : Nat := 2 ^ 64 - 1

/-- Bitwise complement on `u64`. -/
def not64 (v : Nat) : Nat := v ^^^ U64MAX

/-- `u64::rotate_right` by a constant amount below 64 (never panics). -/
def rotr64 (v k : Nat) : Nat := mask64 ((v >>> k) ||| (v <<< (64 - k)))

/-- Fuelled population count of the low `f` bits (lazy `Nat.rec` form). -/
def popcountAux (f : Nat) : Nat → Nat :=
  @Nat.rec (fun _ => Nat → Nat) (fun _ => 0)
    (fun _ ih v => v % 2 + ih (v / 2)) f

/-- `u64::count_ones`. -/
def popcount (v : Nat) : Nat := popcountAux 64 v

/-- `Leaf` (`src/leaf/mod.rs`): parent node index, packed bit container,
used-bit count. -/
structure Leaf : Type where
  parent : Nat
  value : Nat
  nums : Nat
deriving DecidableEq, Repr

namespace Leaf

/-- `Leaf::new`. -/
def new (parent : Nat) : Leaf := ⟨parent, 0, 0⟩

/-- `Leaf::create`. -/
def create (parent value nums : Nat) : Leaf := ⟨parent, value, nums⟩

/-- `Leaf::access`: `(value >> index) & 1 == 1`. -/
def access (l : Leaf) (index : Nat) : Res Bool := do
  let v ← shrU64 l.value index
  pure (v % 2 = 1)

/-- `Leaf::push` (checks fullness, then `push_unchecked`). -/
def push (l : Leaf) (bit : Bool) : Res Leaf :=
  if l.nums < 64 then do
    let b ← shlU64 (if bit then 1 else 0) l.nums
    pure ⟨l.parent, l.value ||| b, l.nums + 1⟩
  else .fail .rerr

/-- `Leaf::insert_unchecked`:
`lmask = MAX << (BITS - index)`, `rmask = MAX >> index`,
`value = (value & lmask) | (bit << index) | ((value & rmask) >> 1)`. -/
def insertUnchecked (l : Leaf) (index : Nat) (bit : Bool) : Res Leaf := do
  let d ← subU 64 index
  let lmask ← shlU64 U64MAX d
  let rmask ← shrU64 U64MAX index
  let b ← shlU64 (if bit then 1 else 0) index
  if l.nums + 1 ≤ 255 then
    pure ⟨l.parent, (l.value &&& lmask) ||| b ||| ((l.value &&& rmask) >>> 1),
      l.nums + 1⟩
  else .fail .died

/-- Inherent `Leaf::insert` (`leaf/mod.rs`): only checks fullness. -/
def insert (l : Leaf) (index : Nat) (bit : Bool) : Res Leaf :=
  if 64 ≤ l.nums then .fail .rerr
  else l.insertUnchecked index bit

/-- Trait `DynBitVec::insert` for `Leaf` (`leaf/trait_impls.rs`): bounds
checks before `insert_unchecked`. -/
def insertDyn (l : Leaf) (index : Nat) (bit : Bool) : Res Leaf :=
  if l.nums < 64 ∧ index ≤ l.nums then l.insertUnchecked index bit
  else if l.nums < index then .fail .rerr
  else if 64 ≤ l.nums then .fail .rerr
  else .fail .died

/-- `Leaf::delete_unchecked`:
`lmask = MAX << (BITS - index)`, `rmask = MAX >> index`,
`value = ((value & lmask) >> 1) | (value & rmask)`. -/
def deleteUnchecked (l : Leaf) (index : Nat) : Res Leaf := do
  let d ← subU 64 index
  let lmask ← shlU64 U64MAX d
  let rmask ← shrU64 U64MAX index
  let n ← subU l.nums 1
  pure ⟨l.parent, ((l.value &&& lmask) >>> 1) ||| (l.value &&& rmask), n⟩

/-- Inherent `Leaf::delete`: only checks emptiness. -/
def delete (l : Leaf) (index : Nat) : Res Leaf :=
  if l.nums = 0 then .fail .rerr
  else l.deleteUnchecked index

/-- Trait `DynBitVec::delete` for `Leaf`: bounds checks. -/
def deleteDyn (l : Leaf) (index : Nat) : Res Leaf :=
  if l.nums ≠ 0 ∧ index < l.nums then l.deleteUnchecked index
  else .fail .rerr

/-- `Leaf::ones`: population count of the container. -/
def ones (l : Leaf) : Nat := popcount l.value

/-- Inherent `Leaf::rank`: `popcount((value if bit else !value) >> index)`. -/
def rank (l : Leaf) (bit : Bool) (index : Nat) : Res Nat := do
  let arr := if bit then l.value else not64 l.value
  let v ← shrU64 arr index
  pure (popcount v)

/-- The positions (ascending) of set bits in the low 64 bits of `arr`. -/
def onePositions (arr : Nat) : List Nat :=
  (List.range 64).filter (fun i => arr.testBit i)

/-- `Leaf::select_pdep`: `TZCNT(PDEP(1 << n, arr))`, which is the position of
the `(n+1)`-th set bit of `arr`, or 64 when there are at most `n` set bits
(`TZCNT 0 = 64`).  Panics if `1 << n` overflows. -/
def select (l : Leaf) (bit : Bool) (n : Nat) : Res Nat := do
  let _ ← shlU64 1 n
  let arr := if bit then l.value else not64 l.value
  pure ((onePositions arr).getD n 64)

/-- Inherent `Leaf::flip`: `value ^= 1 << index`. -/
def flip (l : Leaf) (index : Nat) : Res Leaf := do
  let b ← shlU64 1 index
  pure ⟨l.parent, l.value ^^^ b, l.nums⟩

/-- `Leaf::split_to_right`: keep the lower half, return the upper half. -/
def splitToRight (l : Leaf) : Leaf × Nat :=
  let ret := mask64 (rotr64 l.value 32 <<< 32)
  (⟨l.parent, mask64 (l.value <<< 32) >>> 32, 32⟩, ret >>> 32)

/-- `Leaf::split_to_left`: keep the upper half (shifted down), return the
lower half; `nums -= HALF` is a checked `u8` subtraction. -/
def splitToLeft (l : Leaf) : Res (Leaf × Nat) := do
  let ret := mask64 (l.value <<< 32) >>> 32
  let n ← subU l.nums 32
  pure (⟨l.parent, l.value >>> 32, n⟩, ret)

/-- `Leaf::extend_from`: `value |= other.value << other.nums;
nums += other.nums`. -/
def extendFrom (l other : Leaf) : Res Leaf := do
  let v ← shlU64 other.value other.nums
  if l.nums + other.nums ≤ 255 then
    pure ⟨l.parent, l.value ||| v, l.nums + other.nums⟩
  else .fail .died

/-- `Leaf::prepend`: `value <<= other.nums; value |= other.value;
nums += other.nums`. -/
def prepend (l other : Leaf) : Res Leaf := do
  let v ← shlU64 l.value other.nums
  if l.nums + other.nums ≤ 255 then
    pure ⟨l.parent, v ||| other.value, l.nums + other.nums⟩
  else .fail .died

end Leaf

/-- `Node` (`src/node.rs`): parent index, signed child indices (`c ≥ 0` is a
node, `c < 0` is a leaf), left-subtree aggregates and AVL balance factor. -/
structure Node : Type where
  parent : Option Nat
  left : Option Int
  right : Option Int
  nums : Nat
  ones : Nat
  rank : Int
deriving DecidableEq, Repr

namespace Node

/-- `Node::new`. -/
def new : Node := ⟨none, none, none, 0, 0, 0⟩

/-- `Node::create`. -/
def create (parent : Option Nat) (left right : Option Int) (nums ones : Nat)
    (rank : Int) : Node :=
  ⟨parent, left, right, nums, ones, rank⟩

/-- `Node::replace_child_with`: replace the matching child pointer; panics
when neither child matches. -/
def replaceChildWith (nd : Node) (child newChild : Int) : Res Node :=
  if nd.left = some child then .ok { nd with left := some newChild }
  else if nd.right = some child then .ok { nd with right := some newChild }
  else .fail .died

end Node

/-- `DynamicBitVector` (`src/dynamic_vector/mod.rs`): arena of nodes
(indexed by non-negative ids) and leaves (indexed by the magnitude of
non-positive ids; slot 0 is the sentinel). -/
structure DynamicBitVector : Type where
  root : Nat
  nodes : List Node
  leafs : List Leaf
deriving DecidableEq, Repr

namespace DynamicBitVector

/-- `DynamicBitVector::new`: one empty root node and the sentinel leaf. -/
def new : DynamicBitVector := ⟨0, [Node.new], [Leaf.new 0]⟩

/-- `Index<usize>`: `self.nodes[index]`, panicking when out of bounds. -/
def getNode (s : DynamicBitVector) (i : Nat) : Res Node :=
  unwrapO (s.nodes.get? i)

/-- `Index<isize>`: `self.leafs[|index|]` (non-negative indices are used as
is, negative ones are negated), panicking when out of bounds. -/
def getLeaf (s : DynamicBitVector) (i : Int) : Res Leaf :=
  unwrapO (s.leafs.get? i.natAbs)

/-- `IndexMut<usize>` followed by a field update. -/
def modifyNode (s : DynamicBitVector) (i : Nat) (f : Node → Node) :
    Res DynamicBitVector :=
  match s.nodes.get? i with
  | none => .fail .died
  | some nd => .ok { s with nodes := s.nodes.set i (f nd) }

/-- `IndexMut<isize>` followed by a field update. -/
def modifyLeaf (s : DynamicBitVector) (i : Int) (f : Leaf → Leaf) :
    Res DynamicBitVector :=
  match s.leafs.get? i.natAbs with
  | none => .fail .died
  | some l => .ok { s with leafs := s.leafs.set i.natAbs (f l) }

end DynamicBitVector

/-- `either::Either` as used by the source: `left`/`right` tagged values. -/
inductive Side (α : Type) : Type where
  | left : α → Side α
  | right : α → Side α
deriving DecidableEq, Repr

/-- `Either::either_into`: forget the side. -/
def Side.val {α : Type} : Side α → α
  | .left a => a
  | .right a => a

namespace DynamicBitVector

/-- `get_node_side`: which child of its parent the node `child` is. -/
def getNodeSide (s : DynamicBitVector) (child : Nat) : Res (Option (Side Nat)) := do
  let c ← s.getNode child
  match c.parent with
  | some parent => do
    let p ← s.getNode parent
    if p.left = some (child : Int) then pure (some (.left parent))
    else if p.right = some (child : Int) then pure (some (.right parent))
    else pure none
  | none => pure none

/-- `get_leaf_side`: which child of its parent the leaf `child` is; panics
(`unreachable`) when the parent does not point back. -/
def getLeafSide (s : DynamicBitVector) (child : Int) : Res (Side Nat) := do
  let l ← s.getLeaf child
  let p ← s.getNode l.parent
  if p.left = some child then pure (.left l.parent)
  else if p.right = some child then pure (.right l.parent)
  else .fail .died

/-- Write back the result of `Node::replace_child_with` on node `p`. -/
def replaceChild (s : DynamicBitVector) (p : Nat) (child newChild : Int) :
    Res DynamicBitVector := do
  let pn ← s.getNode p
  let pn2 ← pn.replaceChildWith child newChild
  s.modifyNode p (fun _ => pn2)

/-- `rotate_left` = `rotate_left_new`, steps 1-8 of the source in order. -/
def rotateLeft (s : DynamicBitVector) (z x : Nat) : Res DynamicBitVector := do
  let xn ← s.getNode x
  let s ← s.modifyNode z (fun nd => { nd with parent := xn.parent })
  let zn ← s.getNode z
  let s ← match zn.parent with
    | some p => replaceChild s p (Int.ofNat x) (Int.ofNat z)
    | none => pure { s with root := z }
  let s ← s.modifyNode x (fun nd => { nd with parent := some z })
  let zn2 ← s.getNode z
  let s ← s.modifyNode x (fun nd => { nd with right := zn2.left })
  let xn2 ← s.getNode x
  let r ← unwrapO xn2.right
  let s ← if 0 ≤ r then
      s.modifyNode r.toNat (fun nd => { nd with parent := some x })
    else
      s.modifyLeaf r (fun l => { l with parent := x })
  let s ← s.modifyNode z (fun nd => { nd with left := some (Int.ofNat x) })
  let s ← s.modifyNode z (fun nd => { nd with rank := 0 })
  let s ← s.modifyNode x (fun nd => { nd with rank := 0 })
  let xn3 ← s.getNode x
  s.modifyNode z (fun nd =>
    { nd with nums := nd.nums + xn3.nums, ones := nd.ones + xn3.ones })

/-- `rotate_right` = `rotate_right_new`; step 8 is the checked subtraction
`x.nums -= z.nums; x.ones -= z.ones`. -/
def rotateRight (s : DynamicBitVector) (z x : Nat) : Res DynamicBitVector := do
  let xn ← s.getNode x
  let s ← s.modifyNode z (fun nd => { nd with parent := xn.parent })
  let zn ← s.getNode z
  let s ← match zn.parent with
    | some p => replaceChild s p (Int.ofNat x) (Int.ofNat z)
    | none => pure { s with root := z }
  let s ← s.modifyNode x (fun nd => { nd with parent := some z })
  let zn2 ← s.getNode z
  let s ← s.modifyNode x (fun nd => { nd with left := zn2.right })
  let xn2 ← s.getNode x
  let r ← unwrapO xn2.left
  let s ← if 0 ≤ r then
      s.modifyNode r.toNat (fun nd => { nd with parent := some x })
    else
      s.modifyLeaf r (fun l => { l with parent := x })
  let s ← s.modifyNode z (fun nd => { nd with right := some (Int.ofNat x) })
  let s ← s.modifyNode z (fun nd => { nd with rank := 0 })
  let s ← s.modifyNode x (fun nd => { nd with rank := 0 })
  let xn3 ← s.getNode x
  let zn3 ← s.getNode z
  let nm ← subU xn3.nums zn3.nums
  let om ← subU xn3.ones zn3.ones
  s.modifyNode x (fun nd => { nd with nums := nm, ones := om })

/-- `rebalance`: both source blocks run in sequence with fresh reads.  When
a double rotation picks an inner child that is a leaf, the negative id cast
to `usize` produces an index of at least `2^63`, and the first arena access
with it panics. -/
def rebalance (s : DynamicBitVector) (node parent : Nat) :
    Res DynamicBitVector := do
  let p ← s.getNode parent
  let s ← match p.right with
    | some r =>
      if r = (node : Int) then do
        let nd ← s.getNode node
        if 0 ≤ nd.rank then rotateLeft s node parent
        else do
          let yI ← unwrapO nd.left
          if yI < 0 then Res.fail .died
          else do
            let s ← rotateRight s yI.toNat node
            rotateLeft s yI.toNat parent
      else pure s
    | none => pure s
  let p2 ← s.getNode parent
  match p2.left with
  | some l =>
    if l = (node : Int) then do
      let nd ← s.getNode node
      if nd.rank ≤ 0 then rotateRight s node parent
      else do
        let yI ← unwrapO nd.right
        if yI < 0 then Res.fail .died
        else do
          let s ← rotateLeft s yI.toNat node
          rotateRight s yI.toNat parent
    else pure s
  | none => pure s

/-- `rebalance_no_child`: tries to rebalance through a child of
`|rank| = 1`, then falls through to the `unreachable!` at the end of the
function body, so it always panics after its side effects. -/
def rebalanceNoChild (s : DynamicBitVector) (parent : Nat) :
    Res DynamicBitVector := do
  let p ← s.getNode parent
  let s ← match p.left with
    | some l =>
      if 0 ≤ l then do
        let ln ← s.getNode l.toNat
        if ln.rank.natAbs = 1 then rebalance s l.toNat parent else pure s
      else pure s
    | none => pure s
  let p2 ← s.getNode parent
  let _ ← match p2.right with
    | some r =>
      if 0 ≤ r then do
        let rn ← s.getNode r.toNat
        if rn.rank.natAbs = 1 then rebalance s r.toNat parent else pure s
      else pure s
    | none => pure s
  Res.fail Fail.died

/-- `retrace` with `check_rebalance` inlined: propagate a height change
upward, stopping when the rank cancels, rebalancing at `|rank| = 2`. -/
def retrace (fuel : Nat) (s : DynamicBitVector) (node : Nat)
    (depthChange : Int) : Res DynamicBitVector :=
  fuelFix (fun _ ih (arg : DynamicBitVector × Nat × Int) => do
    let (s, node, depthChange) := arg
    let n ← s.getNode node
    if n.rank = 0 then pure s
    else do
      let side ← getNodeSide s node
      match side with
      | some (.right p) => do
          let s ← s.modifyNode p (fun nd =>
            { nd with rank := nd.rank + depthChange })
          let pn ← s.getNode p
          if pn.rank.natAbs = 2 then rebalance s node p
          else ih (s, p, depthChange)
      | some (.left p) => do
          let s ← s.modifyNode p (fun nd =>
            { nd with rank := nd.rank - depthChange })
          let pn ← s.getNode p
          if pn.rank.natAbs = 2 then rebalance s node p
          else ih (s, p, depthChange)
      | none => pure s)
    fuel (s, node, depthChange)

/-- `remove_retrace`: note that the second source block reads
`self[parent].left` again where the right child is intended. -/
def removeRetrace (fuel : Nat) (s : DynamicBitVector)
    (parent removedChild : Nat) : Res DynamicBitVector := do
  let p ← s.getNode parent
  let s ← match p.left with
    | some l =>
      if l = (removedChild : Int) then do
        let s ← s.modifyNode parent (fun nd =>
          { nd with left := none, rank := nd.rank + 1 })
        let pn ← s.getNode parent
        if pn.rank.natAbs = 2 then rebalanceNoChild s parent
        else retrace fuel s parent 1
      else pure s
    | none => pure s
  let p2 ← s.getNode parent
  match p2.left with
  | some r =>
    if r = (removedChild : Int) then do
      let s ← s.modifyNode parent (fun nd =>
        { nd with right := none, rank := nd.rank - 1 })
      let pn ← s.getNode parent
      if pn.rank.natAbs = 2 then rebalanceNoChild s parent
      else retrace fuel s parent (-1)
    else pure s
  | none => pure s

/-- `insert_node_common`: wire the intermediary node between the leaf and
its former parent; initial aggregates come from the leaf; `rank = -1`. -/
def insertNodeCommon (s : DynamicBitVector) (childId : Int)
    (parentId intId : Nat) : Res DynamicBitVector := do
  let s ← s.modifyLeaf childId (fun l => { l with parent := intId })
  let s ← s.modifyNode intId (fun nd => { nd with parent := some parentId })
  let s ← s.modifyNode intId (fun nd => { nd with left := some childId })
  let cl ← s.getLeaf childId
  let s ← s.modifyNode intId (fun nd =>
    { nd with nums := cl.nums, ones := Leaf.ones cl })
  s.modifyNode intId (fun nd => { nd with rank := -1 })

/-- `insert_intermediary_node`: replace the matching child pointer of the
leaf's parent by the intermediary node; `unreachable!` otherwise. -/
def insertIntermediaryNode (s : DynamicBitVector) (childId : Int)
    (intNodeId : Nat) : Res DynamicBitVector := do
  let cl ← s.getLeaf childId
  let parentId := cl.parent
  let p ← s.getNode parentId
  if p.left = some childId then do
    let s ← s.modifyNode parentId (fun nd =>
      { nd with left := some (Int.ofNat intNodeId) })
    insertNodeCommon s childId parentId intNodeId
  else if p.right = some childId then do
    let s ← s.modifyNode parentId (fun nd =>
      { nd with right := some (Int.ofNat intNodeId) })
    insertNodeCommon s childId parentId intNodeId
  else .fail .died

/-- `insert_node_at_leaf`: append a fresh node and splice it in at the
leaf's position; returns the new node id. -/
def insertNodeAtLeaf (s : DynamicBitVector) (leaf : Int) :
    Res (DynamicBitVector × Nat) := do
  let newNodeId := s.nodes.length
  let s := { s with nodes := s.nodes ++ [Node.new] }
  let s ← insertIntermediaryNode s leaf newNodeId
  pure (s, newNodeId)

/-- `move_right_child_left`: shift the right subtree over to the empty left
side; the aggregate reads go through `Index<isize>`, i.e. the leaf arena. -/
def moveRightChildLeft (s : DynamicBitVector) (node : Nat) :
    Res DynamicBitVector := do
  let s ← s.modifyNode node (fun nd =>
    { nd with left := nd.right, right := none })
  let n2 ← s.getNode node
  let leftId ← unwrapO n2.left
  let lf ← s.getLeaf leftId
  s.modifyNode node (fun nd =>
    { nd with nums := lf.nums, ones := Leaf.ones lf, rank := nd.rank - 2 })

/-- `full_nums_ones`: aggregates of the full subtree under `child`, adding
the right spine to the per-node left-subtree counters. -/
def fullNumsOnes (fuel : Nat) (s : DynamicBitVector) (child : Int) :
    Res (Nat × Nat) :=
  fuelFix (fun _ ih (arg : DynamicBitVector × Int) => do
    let (s, child) := arg
    if 0 ≤ child then do
      let nd ← s.getNode child.toNat
      match nd.right with
      | some r => do
          let p ← ih (s, r)
          pure (p.1 + nd.nums, p.2 + nd.ones)
      | none => pure (nd.nums, nd.ones)
    else do
      let lf ← s.getLeaf child
      pure (lf.nums, Leaf.ones lf))
    fuel (s, child)

/-- `update_left_values_only`: recompute the parent's aggregates when the
emitting child is its left child; reports whether it was. -/
def updateLeftValuesOnly (fuel : Nat) (s : DynamicBitVector) (node : Nat)
    (child : Int) : Res (DynamicBitVector × Bool) := do
  let n ← s.getNode node
  match n.left with
  | some l =>
    if l = child then do
      let p ← fullNumsOnes fuel s child
      let s ← s.modifyNode node (fun nd =>
        { nd with nums := p.1, ones := p.2 })
      pure (s, true)
    else pure (s, false)
  | none => pure (s, false)

/-- `update_left_values`: keep walking up while the last step came from a
left child. -/
def updateLeftValues (fuel : Nat) (s : DynamicBitVector) (node : Nat)
    (child : Int) : Res DynamicBitVector :=
  fuelFix (fun fuel ih (arg : DynamicBitVector × Nat × Int) => do
    let (s, node, child) := arg
    let p ← updateLeftValuesOnly fuel s node child
    let s := p.1
    if p.2 then do
      let n ← s.getNode node
      match n.parent with
      | some par => ih (s, par, Int.ofNat node)
      | none => pure s
    else pure s)
    fuel (s, node, child)

/-- `update_left_values_node`. -/
def updateLeftValuesNode (fuel : Nat) (s : DynamicBitVector) (node : Nat) :
    Res DynamicBitVector := do
  let n ← s.getNode node
  match n.left with
  | some l => updateLeftValues fuel s node l
  | none => s.modifyNode node (fun nd => { nd with nums := 0, ones := 0 })

/-- `create_right_leaf`: append an empty leaf as the right child, bump the
rank, retrace; returns the (negative) leaf id. -/
def createRightLeaf (fuel : Nat) (s : DynamicBitVector) (node : Nat) :
    Res (DynamicBitVector × Int) := do
  let leafId : Int := -(s.leafs.length : Int)
  let s := { s with leafs := s.leafs ++ [Leaf.new node] }
  let s ← s.modifyNode node (fun nd =>
    { nd with right := some leafId, rank := nd.rank + 1 })
  let s ← retrace fuel s node 1
  pure (s, leafId)

end DynamicBitVector

namespace DynamicBitVector

/-- Combined step for the mutually recursive `push_node` (`.inl` input)
and `push_leaf` (`.inr` input).

`push_node` descends the right spine and creates a right leaf when absent.
`push_leaf` tries the leaf push; on `Full` it either splits off a new
intermediary node (when a left sibling exists) or moves the leaf to the
left side, then pushes again. -/
def pushGo (fuel : Nat) : (DynamicBitVector × Nat × Bool) ⊕
    (DynamicBitVector × Int × Bool) → Res DynamicBitVector :=
  fuelFix (fun fuel ih arg =>
    match arg with
    | .inl (s, node, bit) => do
      let n ← s.getNode node
      match n.right with
      | some r =>
        if 0 ≤ r then ih (.inl (s, r.toNat, bit))
        else ih (.inr (s, r, bit))
      | none => do
        let p ← createRightLeaf fuel s node
        ih (.inl (p.1, node, bit))
    | .inr (s, leaf, bit) => do
      let l ← s.getLeaf leaf
      match l.push bit with
      | .ok l2 => s.modifyLeaf leaf (fun _ => l2)
      | .fail .died => .fail .died
      | .fail .rerr => do
        let node := l.parent
        let n ← s.getNode node
        if n.left.isSome then do
          let p ← insertNodeAtLeaf s leaf
          let s ← retrace fuel p.1 p.2 1
          ih (.inl (s, p.2, bit))
        else do
          let s ← moveRightChildLeft s node
          ih (.inl (s, node, bit)))
    fuel

/-- `push_node`. -/
def pushNode (fuel : Nat) (s : DynamicBitVector) (node : Nat) (bit : Bool) :
    Res DynamicBitVector :=
  pushGo fuel (.inl (s, node, bit))

/-- `push_leaf`. -/
def pushLeaf (fuel : Nat) (s : DynamicBitVector) (leaf : Int) (bit : Bool) :
    Res DynamicBitVector :=
  pushGo fuel (.inr (s, leaf, bit))

/-- `split_leaf`: splice in a new node above the full leaf, retrace, move
the upper half into a fresh right leaf; returns the new node id. -/
def splitLeaf (fuel : Nat) (s : DynamicBitVector) (leaf : Int) :
    Res (DynamicBitVector × Nat) := do
  let p ← insertNodeAtLeaf s leaf
  let s ← retrace fuel p.1 p.2 1
  let lf ← s.getLeaf leaf
  let pr := lf.splitToRight
  let s ← s.modifyLeaf leaf (fun _ => pr.1)
  let q ← createRightLeaf fuel s p.2
  let s ← q.1.modifyLeaf q.2 (fun l => { l with value := pr.2 })
  let s ← s.modifyLeaf q.2 (fun l => { l with nums := 32 })
  let r ← updateLeftValuesOnly fuel s p.2 leaf
  pure (r.1, p.2)

/-- Combined step for the mutually recursive `insert_node` (`.inl` input)
and `insert_leaf` (`.inr` input).

`insert_node` descends to the target position, bumping the left-subtree
aggregates when entering a left child, and creates a right leaf when
needed.  `insert_leaf` splits a full leaf (two variants depending on
whether the parent has a left child) and otherwise runs the inherent
`Leaf::insert`. -/
def insertGo (fuel : Nat) : (DynamicBitVector × Nat × Nat × Bool) ⊕
    (DynamicBitVector × Int × Nat × Bool) → Res DynamicBitVector :=
  fuelFix (fun fuel ih arg =>
    match arg with
    | .inl (s, node, index, bit) => do
      let n ← s.getNode node
      if n.nums ≤ index then
        match n.right with
        | some rightId =>
          if 0 ≤ rightId then ih (.inl (s, rightId.toNat, index - n.nums, bit))
          else ih (.inr (s, rightId, index - n.nums, bit))
        | none => do
          let p ← createRightLeaf fuel s node
          let n2 ← p.1.getNode node
          let d ← subU index n2.nums
          ih (.inr (p.1, p.2, d, bit))
      else do
        let leftId ← unwrapO n.left
        let s ← s.modifyNode node (fun nd =>
          { nd with nums := nd.nums + 1,
                    ones := nd.ones + (if bit then 1 else 0) })
        if 0 ≤ leftId then ih (.inl (s, leftId.toNat, index, bit))
        else ih (.inr (s, leftId, index, bit))
    | .inr (s, leaf, index, bit) => do
      let l ← s.getLeaf leaf
      if 64 ≤ l.nums then do
        let p ← s.getNode l.parent
        if p.left = none then do
          let s ← moveRightChildLeft s l.parent
          let lf ← s.getLeaf leaf
          let pr := lf.splitToRight
          let s ← s.modifyLeaf leaf (fun _ => pr.1)
          let lf2 ← s.getLeaf leaf
          let q ← createRightLeaf fuel s lf2.parent
          let s ← q.1.modifyLeaf q.2 (fun x => { x with value := pr.2 })
          let s ← s.modifyLeaf q.2 (fun x => { x with nums := 32 })
          let lf3 ← s.getLeaf leaf
          let r ← updateLeftValuesOnly fuel s lf3.parent leaf
          let s := r.1
          let lf4 ← s.getLeaf leaf
          ih (.inl (s, lf4.parent, index, bit))
        else do
          let q ← splitLeaf fuel s leaf
          ih (.inl (q.1, q.2, index, bit))
      else do
        let l2 ← l.insert index bit
        s.modifyLeaf leaf (fun _ => l2))
    fuel

/-- `insert_node`. -/
def insertNode (fuel : Nat) (s : DynamicBitVector) (node index : Nat)
    (bit : Bool) : Res DynamicBitVector :=
  insertGo fuel (.inl (s, node, index, bit))

/-- `insert_leaf`. -/
def insertLeaf (fuel : Nat) (s : DynamicBitVector) (leaf : Int)
    (index : Nat) (bit : Bool) : Res DynamicBitVector :=
  insertGo fuel (.inr (s, leaf, index, bit))

/-- `descend_leftmost`; the recursive calls of the source pass `node`
again, so descending through a node child never terminates (modelled by
fuel exhaustion). -/
def descendLeftmost (fuel : Nat) (s : DynamicBitVector) (node : Nat) :
    Res (Option (Side Int)) :=
  fuelFix (fun _ ih (arg : DynamicBitVector × Nat) => do
    let (s, node) := arg
    let n ← s.getNode node
    match n.left with
    | some l =>
      if 0 ≤ l then ih (s, node)
      else pure (some (.left l))
    | none =>
      match n.right with
      | some r =>
        if 0 ≤ r then ih (s, node)
        else pure (some (.left r))
      | none => .fail .died)
    fuel (s, node)

/-- `descend_rightmost`, mirror of `descend_leftmost`. -/
def descendRightmost (fuel : Nat) (s : DynamicBitVector) (node : Nat) :
    Res (Option (Side Int)) :=
  fuelFix (fun _ ih (arg : DynamicBitVector × Nat) => do
    let (s, node) := arg
    let n ← s.getNode node
    match n.right with
    | some r =>
      if 0 ≤ r then ih (s, node)
      else pure (some (.right r))
    | none =>
      match n.left with
      | some l =>
        if 0 ≤ l then ih (s, node)
        else pure (some (.right l))
      | none => .fail .died)
    fuel (s, node)

/-- `closest_neighbor_child`: ascend until a sibling subtree exists, then
descend its extremal side. -/
def closestNeighborChild (fuel : Nat) (s : DynamicBitVector) (child : Nat) :
    Res (Option (Side Int)) :=
  fuelFix (fun fuel ih (arg : DynamicBitVector × Nat) => do
    let (s, child) := arg
    let c ← s.getNode child
    match c.parent with
    | some p => do
      let pn ← s.getNode p
      let b1 := match pn.left with
        | some l => decide (l ≠ (child : Int))
        | none => false
      if b1 then descendRightmost fuel s p
      else
        let b2 := match pn.right with
          | some r => decide (r ≠ (child : Int))
          | none => false
        if b2 then descendLeftmost fuel s p
        else ih (s, p)
    | none => pure none)
    fuel (s, child)

/-- `closest_neighbor_leaf`: check the other child of the parent first,
then ascend. -/
def closestNeighborLeaf (fuel : Nat) (s : DynamicBitVector) (leaf : Int) :
    Res (Option (Side Int)) := do
  let lf ← s.getLeaf leaf
  let parent := lf.parent
  let p ← s.getNode parent
  let step2 : Res (Option (Side Int)) :=
    match p.right with
    | some r =>
      if r ≠ leaf then pure (some (.left r))
      else closestNeighborChild fuel s parent
    | none => closestNeighborChild fuel s parent
  match p.left with
  | some l =>
    if l ≠ leaf then pure (some (.right l))
    else step2
  | none => step2

/-- `Vec::swap_remove`: replace entry `i` by the last entry and pop;
panics when `i` is out of bounds. -/
def listSwapRemove {α : Type} (xs : List α) (i : Nat) : Option (List α) :=
  match xs.get? (xs.length - 1) with
  | none => none
  | some last =>
    if i < xs.length then some ((xs.set i last).take (xs.length - 1))
    else none

/-- `swap_remove_leaf`: fix the parent pointer of the entry swapped into the
freed slot, then remove.  The source passes the positive raw slot index
`self.leafs.len() - 1` to `get_leaf_side`, and `(-leaf) as usize` is the
removal index. -/
def swapRemoveLeaf (s : DynamicBitVector) (leaf : Int) :
    Res DynamicBitVector := do
  let side ← getLeafSide s ((s.leafs.length - 1 : Nat) : Int)
  let rmIdx : Int := -leaf
  let s ← match side with
    | .left p => s.modifyNode p (fun nd => { nd with left := some leaf })
    | .right p => s.modifyNode p (fun nd => { nd with right := some leaf })
  if rmIdx < 0 then .fail .died
  else match listSwapRemove s.leafs rmIdx.toNat with
    | some ls => pure { s with leafs := ls }
    | none => .fail .died

/-- `swap_remove_node`. -/
def swapRemoveNode (s : DynamicBitVector) (node : Nat) :
    Res DynamicBitVector := do
  let side ← getNodeSide s (s.nodes.length - 1)
  let s ← match side with
    | some (.left p) => s.modifyNode p (fun nd =>
        { nd with left := some (Int.ofNat node) })
    | some (.right p) => s.modifyNode p (fun nd =>
        { nd with right := some (Int.ofNat node) })
    | none => pure { s with root := node }
  match listSwapRemove s.nodes node with
  | some ns => pure { s with nodes := ns }
  | none => .fail .died

/-- `merge_leafs`: fold the small leaf into the neighbor, adjust the
parent's rank, swap-remove the leaf, then rebalance or retrace. -/
def mergeLeafs (fuel : Nat) (s : DynamicBitVector) (smallLeaf : Int)
    (nb : Side Int) : Res DynamicBitVector := do
  let leaf ← s.getLeaf smallLeaf
  let parent := leaf.parent
  let s ← match nb with
    | .left l => do
        let tgt ← s.getLeaf l
        let tgt2 ← tgt.extendFrom leaf
        let s ← s.modifyLeaf l (fun _ => tgt2)
        s.modifyNode parent (fun nd => { nd with rank := nd.rank + 1 })
    | .right r => do
        let tgt ← s.getLeaf r
        let tgt2 ← tgt.prepend leaf
        let s ← s.modifyLeaf r (fun _ => tgt2)
        s.modifyNode parent (fun nd => { nd with rank := nd.rank - 1 })
  let s ← swapRemoveLeaf s smallLeaf
  let p ← s.getNode parent
  if p.rank.natAbs = 2 then do
    let s ← rebalanceNoChild s parent
    let pn ← s.getNode parent
    if pn.left = none ∧ pn.right = none then
      match pn.parent with
      | some gparent => do
          let s ← swapRemoveNode s parent
          removeRetrace fuel s gparent parent
      | none => pure s
    else pure s
  else retrace fuel s parent (-1)

/-- `merge_away`: merge into or steal from the closest sequential
neighbor, then refresh aggregates on the affected parent chains. -/
def mergeAway (fuel : Nat) (s : DynamicBitVector) (leaf : Int) :
    Res DynamicBitVector := do
  let onb ← closestNeighborLeaf fuel s leaf
  match onb with
  | some nb => do
      let n := nb.val
      let nlf ← s.getLeaf n
      let s ←
        if nlf.nums ≤ 48 then do
          let lf ← s.getLeaf leaf
          let parent := lf.parent
          let s ← mergeLeafs fuel s leaf nb
          updateLeftValuesNode fuel s parent
        else do
          let stolen ← subU nlf.nums 32
          match nb with
          | .right r => do
              let tgt ← s.getLeaf r
              let pr ← tgt.splitToLeft
              let s ← s.modifyLeaf r (fun _ => pr.1)
              let lf ← s.getLeaf leaf
              let lf2 ← lf.extendFrom (Leaf.create 0 pr.2 stolen)
              let s ← s.modifyLeaf leaf (fun _ => lf2)
              let lf3 ← s.getLeaf leaf
              updateLeftValues fuel s lf3.parent leaf
          | .left l => do
              let tgt ← s.getLeaf l
              let pr := tgt.splitToRight
              let s ← s.modifyLeaf l (fun _ => pr.1)
              let lf ← s.getLeaf leaf
              let lf2 ← lf.prepend (Leaf.create 0 pr.2 stolen)
              let s ← s.modifyLeaf leaf (fun _ => lf2)
              let lf3 ← s.getLeaf leaf
              updateLeftValues fuel s lf3.parent leaf
      let nlf2 ← s.getLeaf n
      updateLeftValues fuel s nlf2.parent n
  | none => pure s

/-- `delete_leaf`: inherent `Leaf::delete`, then merge away an
under-filled leaf; returns the edited leaf id. -/
def deleteLeaf (fuel : Nat) (s : DynamicBitVector) (leaf : Int)
    (index : Nat) : Res (DynamicBitVector × Int) := do
  let lf ← s.getLeaf leaf
  let lf2 ← lf.delete index
  let s ← s.modifyLeaf leaf (fun _ => lf2)
  let lf3 ← s.getLeaf leaf
  let s ← if lf3.nums ≤ 16 then mergeAway fuel s leaf else pure s
  pure (s, leaf)

/-- `flip_leaf`: inherent `Leaf::flip`; returns the edited leaf id. -/
def flipLeafOp (s : DynamicBitVector) (leaf : Int) (index : Nat) :
    Res (DynamicBitVector × Int) := do
  let lf ← s.getLeaf leaf
  let lf2 ← lf.flip index
  let s ← s.modifyLeaf leaf (fun _ => lf2)
  pure (s, leaf)

/-- `apply_node`: positional descent applying `f` at the reached leaf. -/
def applyNode (fuel : Nat)
    (f : DynamicBitVector → Int → Nat → Res (DynamicBitVector × Int))
    (s : DynamicBitVector) (node index : Nat) :
    Res (DynamicBitVector × Int) :=
  fuelFix (fun _ ih (arg : DynamicBitVector × Nat × Nat) => do
    let (s, node, index) := arg
    let n ← s.getNode node
    if n.nums ≤ index then do
      let rid ← unwrapO n.right
      if 0 ≤ rid then ih (s, rid.toNat, index - n.nums)
      else f s rid (index - n.nums)
    else do
      let lid ← unwrapO n.left
      if 0 ≤ lid then ih (s, lid.toNat, index)
      else f s lid index)
    fuel (s, node, index)

/-- `apply_bitop_node`: positional descent accumulating `g` per visited
node and `f` at the reached leaf. -/
def applyBitopNode (fuel : Nat)
    (f : DynamicBitVector → Int → Nat → Bool → Res Nat)
    (g : DynamicBitVector → Nat → Bool → Res Nat)
    (s : DynamicBitVector) (node index : Nat) (bit : Bool) : Res Nat :=
  fuelFix (fun _ ih (arg : DynamicBitVector × Nat × Nat) => do
    let (s, node, index) := arg
    let n ← s.getNode node
    if n.nums ≤ index then do
      let rid ← unwrapO n.right
      if 0 ≤ rid then do
        let gv ← g s node false
        let rv ← ih (s, rid.toNat, index - n.nums)
        pure (gv + rv)
      else do
        let gv ← g s node false
        let fv ← f s rid (index - n.nums) bit
        pure (gv + fv)
    else do
      let lid ← unwrapO n.left
      if 0 ≤ lid then do
        let gv ← g s node true
        let rv ← ih (s, lid.toNat, index)
        pure (gv + rv)
      else f s lid index bit)
    fuel (s, node, index)

/-- `get_node` (the `access` descent; note the strict `> 0` child test). -/
def accessNode (fuel : Nat) (s : DynamicBitVector) (node index : Nat) :
    Res Bool :=
  fuelFix (fun _ ih (arg : DynamicBitVector × Nat × Nat) => do
    let (s, node, index) := arg
    let n ← s.getNode node
    if n.nums ≤ index then do
      let rid ← unwrapO n.right
      if 0 < rid then ih (s, rid.toNat, index - n.nums)
      else do
        let lf ← s.getLeaf rid
        lf.access (index - n.nums)
    else do
      let lid ← unwrapO n.left
      if 0 < lid then ih (s, lid.toNat, index)
      else do
        let lf ← s.getLeaf lid
        lf.access index)
    fuel (s, node, index)

/-- `select_node`: both the branch test `nums - ones <= n` and the
adjustment `n - nums` are checked `usize` subtractions. -/
def selectNode (fuel : Nat) (s : DynamicBitVector) (node n : Nat)
    (bit : Bool) : Res Nat :=
  fuelFix (fun _ ih (arg : DynamicBitVector × Nat × Nat) => do
    let (s, node, n) := arg
    let nd ← s.getNode node
    let z ← subU nd.nums nd.ones
    if z ≤ n then do
      let rid ← unwrapO nd.right
      if 0 ≤ rid then do
        let d ← subU n nd.nums
        let r ← ih (s, rid.toNat, d)
        pure (nd.nums + r)
      else do
        let d ← subU n nd.nums
        let lf ← s.getLeaf rid
        let r ← lf.select bit d
        pure (nd.nums + r)
    else do
      let lid ← unwrapO nd.left
      if 0 ≤ lid then ih (s, lid.toNat, n)
      else do
        let lf ← s.getLeaf lid
        lf.select bit n)
    fuel (s, node, n)

/-- `rank_leaf`: the inherent `Leaf::rank` at the reached leaf. -/
def rankLeafF (s : DynamicBitVector) (leaf : Int) (index : Nat)
    (bit : Bool) : Res Nat := do
  let lf ← s.getLeaf leaf
  lf.rank bit index

/-- `rank_add`: `ones` of the skipped left subtree on right descents. -/
def rankAddF (s : DynamicBitVector) (node : Nat) (leftDescent : Bool) :
    Res Nat :=
  if leftDescent then pure 0
  else do
    let n ← s.getNode node
    pure n.ones

/-- `len_leaf`: the used count of the reached leaf. -/
def lenLeafF (s : DynamicBitVector) (leaf : Int) (_index : Nat)
    (_bit : Bool) : Res Nat := do
  let lf ← s.getLeaf leaf
  pure lf.nums

/-- `len_add`: `nums` of every visited node. -/
def lenAddF (s : DynamicBitVector) (node : Nat) (_leftDescent : Bool) :
    Res Nat := do
  let n ← s.getNode node
  pure n.nums

/-- Fuel used by every public operation; ample for all states in this
development (recursion in the source is bounded by the tree size except
for the non-terminating `descend_*` self-calls, which exhaust any fuel). -/
def FUEL : Nat := 300

/-- `DynamicBitVector::push`. -/
def push (s : DynamicBitVector) (bit : Bool) : Res DynamicBitVector :=
  pushNode FUEL s s.root bit

/-- `DynBitVec::insert` for `DynamicBitVector` (release variant). -/
def insert (s : DynamicBitVector) (index : Nat) (bit : Bool) :
    Res DynamicBitVector :=
  insertNode FUEL s s.root index bit

/-- `DynBitVec::delete` for `DynamicBitVector` (release variant). -/
def delete (s : DynamicBitVector) (index : Nat) : Res DynamicBitVector := do
  let p ← applyNode FUEL (deleteLeaf FUEL) s s.root index
  let lf ← p.1.getLeaf p.2
  updateLeftValues FUEL p.1 lf.parent p.2

/-- `DynBitVec::flip` for `DynamicBitVector` (returns no error). -/
def flip (s : DynamicBitVector) (index : Nat) : Res DynamicBitVector := do
  let p ← applyNode FUEL flipLeafOp s s.root index
  let lf ← p.1.getLeaf p.2
  updateLeftValues FUEL p.1 lf.parent p.2

/-- `StaticBitVec::access` for `DynamicBitVector`. -/
def access (s : DynamicBitVector) (index : Nat) : Res Bool :=
  accessNode FUEL s s.root index

/-- `StaticBitVec::rank` for `DynamicBitVector`. -/
def rank (s : DynamicBitVector) (bit : Bool) (index : Nat) : Res Nat :=
  applyBitopNode FUEL rankLeafF rankAddF s s.root index bit

/-- `StaticBitVec::select` for `DynamicBitVector`. -/
def select (s : DynamicBitVector) (bit : Bool) (n : Nat) : Res Nat :=
  selectNode FUEL s s.root n bit

/-- `DynamicBitVector::len`: the descent with index `usize::MAX`. -/
def len (s : DynamicBitVector) : Res Nat :=
  applyBitopNode FUEL lenLeafF lenAddF s s.root (2 ^ 64 - 1) false

/-- `StaticBitVec::ones` for `DynamicBitVector`: `self[self.root].ones`. -/
def ones (s : DynamicBitVector) : Res Nat := do
  let n ← s.getNode s.root
  pure n.ones

end DynamicBitVector

/-! ## Ground truth

Specification-side definitions used to state the claims: the stored bit
sequence of a tree (in-order leaf traversal, least-significant bit first
within a leaf, `nums` bits per leaf), prefix counts, positions of
occurrences, and the per-node aggregate invariant checked by the source's
own `validate_node`. -/

/-- The bit sequence stored under child reference `c` (ground truth). -/
def seqBits (fuel : Nat) (s : DynamicBitVector) (c : Int) :
    Option (List Bool) :=
  fuelFixO (fun _ ih (arg : DynamicBitVector × Int) =>
    let (s, c) := arg
    if 0 ≤ c then
      match s.nodes.get? c.toNat with
      | none => none
      | some nd => do
        let L ← match nd.left with
          | some l => ih (s, l)
          | none => some []
        let R ← match nd.right with
          | some r => ih (s, r)
          | none => some []
        some (L ++ R)
    else
      match s.leafs.get? c.natAbs with
      | none => none
      | some lf =>
        some ((List.range lf.nums).map (fun i => lf.value.testBit i)))
    fuel (s, c)

/-- The whole stored bit sequence of a tree (ground truth). -/
def bitsOf (s : DynamicBitVector) : Option (List Bool) :=
  seqBits DynamicBitVector.FUEL s (Int.ofNat s.root)

/-- Number of `b`-valued entries of a bit list. -/
def countB (bs : List Bool) (b : Bool) : Nat :=
  (bs.filter (fun x => x == b)).length

/-- Zero-based position of the `(n+1)`-th `b`-valued entry of a bit list. -/
def nthPos (bs : List Bool) (b : Bool) (n : Nat) : Option Nat :=
  ((List.range bs.length).filter (fun i => bs.getD i (!b) == b)).get? n

/-- `validate_node` from the source, with the two `assert_eq` checks turned
into `none` results: recompute each node's left-subtree aggregates and
compare them with the stored `nums`/`ones`; returns the subtree totals. -/
def validateNode (fuel : Nat) (s : DynamicBitVector) (node : Nat) :
    Option (Nat × Nat) :=
  fuelFixO (fun _ ih (arg : DynamicBitVector × Nat) =>
    let (s, node) := arg
    match s.nodes.get? node with
    | none => none
    | some nd => do
      let pL ← match nd.left with
        | some l =>
          if 0 ≤ l then ih (s, l.toNat)
          else
            match s.leafs.get? l.natAbs with
            | some lf => some (lf.nums, popcount lf.value)
            | none => none
        | none => some ((0 : Nat), (0 : Nat))
      if nd.nums = pL.1 ∧ nd.ones = pL.2 then do
        let pR ← match nd.right with
          | some r =>
            if 0 ≤ r then ih (s, r.toNat)
            else
              match s.leafs.get? r.natAbs with
              | some lf => some (lf.nums, popcount lf.value)
              | none => none
          | none => some ((0 : Nat), (0 : Nat))
        some (pL.1 + pR.1, pL.2 + pR.2)
      else none)
    fuel (s, node)

/-- Invariant P1 (claim C3): every node of the tree walked by
`validate_node` carries the aggregates of its left subtree. -/
def checkP1 (s : DynamicBitVector) : Bool :=
  (validateNode DynamicBitVector.FUEL s s.root).isSome

/-- Invariant P2 (claim C4): every node of the arena has `|rank| ≤ 1`. -/
def checkRanks (s : DynamicBitVector) : Bool :=
  s.nodes.all (fun nd => nd.rank.natAbs ≤ 1)

/-- The leaf-insert bit contract stated by the specification:
`L = !0 << i`, `value = ((value & L) << 1) | (b << i) | (value & !L)`. -/
def specInsertValue (v i : Nat) (b : Bool) : Nat :=
  let L := mask64 (U64MAX <<< i)
  mask64 ((v &&& L) <<< 1) ||| ((if b then 1 else 0) <<< i) ||| (v &&& not64 L)

/-- Iterate `push` over a list of bits. -/
def pushSeq (s : DynamicBitVector) (bs : List Bool) : Res DynamicBitVector :=
  bs.foldlM (fun t b => DynamicBitVector.push t b) s

/-- The tree after `push(true); push(false)`: a root whose right child is a
single leaf storing the sequence `[1, 0]`. -/
def sTF : Res DynamicBitVector := pushSeq DynamicBitVector.new [true, false]

/-- The tree after one `push(true)`. -/
def sT1 : Res DynamicBitVector := pushSeq DynamicBitVector.new [true]

/-- The tree after pushing ten `1`s, then fifty-four `0`s, then sixty-four
`1`s: a root with a left leaf holding the mixed block and a full right
leaf of ones. -/
def sMix : Res DynamicBitVector :=
  pushSeq DynamicBitVector.new
    (List.replicate 10 true ++ (List.replicate 54 false ++
      List.replicate 64 true))

/-- The tree after pushing 384 `true` bits (scenario S1 of the
specification; the resulting arena equals the one asserted by the
repository's own `push_6_true` test). -/
def sPush384 : Res DynamicBitVector :=
  pushSeq DynamicBitVector.new (List.replicate 384 true)

/-- The state reached by `push(true)` on a fresh tree. -/
def c6Base : DynamicBitVector :=
  ⟨0, [Node.create none none (some (-1)) 0 0 1],
    [Leaf.new 0, Leaf.create 0 1 1]⟩

/-! ## The rank invariant (claim C4)

The inductive invariant: every balance factor is in `[-1, 1]`, a node
without a right child never leans right (`create_right_leaf` bumps the rank
unchecked, so this is what keeps it in range), a node without a left child
never leans left (`move_right_child_left` subtracts 2 unchecked), node
children stay inside the node arena, and the arena sizes satisfy
`#nodes ≤ #leafs` (strictly once a real leaf exists), which makes
`swap_remove_leaf`'s `get_leaf_side` on the positive slot index die before
any merge can complete. -/

/-- Per-node well-formedness of the balance factor. -/
def nodeOk (nd : Node) : Prop :=
  nd.rank.natAbs ≤ 1 ∧ (nd.right = none → nd.rank ≤ 0) ∧
    (nd.left = none → 0 ≤ nd.rank)

/-- A child pointer that denotes a node (non-negative) stays inside the
node arena. -/
def childBound (len : Nat) (c : Option Int) : Prop :=
  ∀ k, c = some k → 0 ≤ k → k.toNat < len

/-- All node children of all nodes stay inside the node arena. -/
def ptrOk (s : DynamicBitVector) : Prop :=
  ∀ i nd, s.nodes.get? i = some nd →
    childBound s.nodes.length nd.left ∧ childBound s.nodes.length nd.right

/-- All balance factors are well formed. -/
def ranksOk (s : DynamicBitVector) : Prop :=
  ∀ i nd, s.nodes.get? i = some nd → nodeOk nd

/-- The inductive invariant for claim C4. -/
def Inv (s : DynamicBitVector) : Prop :=
  ranksOk s ∧ ptrOk s ∧ s.nodes.length ≤ s.leafs.length ∧
    (2 ≤ s.leafs.length → s.nodes.length < s.leafs.length)

/-- The freshly spliced node tracked through a retrace: no right child and
a non-positive balance factor. -/
def waiting (s : DynamicBitVector) (w : Nat) : Prop :=
  ∀ nd, s.nodes.get? w = some nd → nd.right = none ∧ nd.rank ≤ 0

/-- Every node outside the exception set `E` is well formed. -/
def okExcept (s : DynamicBitVector) (E : Nat → Prop) : Prop :=
  ∀ i nd, s.nodes.get? i = some nd → ¬ E i → nodeOk nd

/-- The intermediate shape of the push/insert machinery after
`move_right_child_left` (or after splicing an intermediary node): every
other node is well formed; the distinguished node has no right child and a
rank in `[-2, 0]` (in `[-1, 0]` when it also has no left child); the arena
sizes satisfy the weak relation that the pending `create_right_leaf`
restores. -/
def excCreate (s : DynamicBitVector) (node : Nat) : Prop :=
  (∀ i nd, s.nodes.get? i = some nd → i ≠ node → nodeOk nd) ∧
  (∀ nd, s.nodes.get? node = some nd → nd.right = none ∧ -2 ≤ nd.rank ∧
    nd.rank ≤ 0 ∧ (nd.left = none → -1 ≤ nd.rank)) ∧
  ptrOk s ∧ s.nodes.length ≤ s.leafs.length ∧ 2 ≤ s.leafs.length

/-- Precondition of the combined push recursion: a well-formed state, or —
after `move_right_child_left` — the exceptional shape at the worked node;
a leaf target is always a negative id. -/
def pushPre : (DynamicBitVector × Nat × Bool) ⊕
    (DynamicBitVector × Int × Bool) → Prop
  | .inl (s, node, _) => Inv s ∨ excCreate s node
  | .inr (s, leaf, _) => Inv s ∧ leaf < 0

/-- Precondition of the combined insert recursion. -/
def insertPre : (DynamicBitVector × Nat × Nat × Bool) ⊕
    (DynamicBitVector × Int × Nat × Bool) → Prop
  | .inl (s, _, _, _) => Inv s
  | .inr (s, leaf, _, _) => Inv s ∧ leaf < 0

/-- States reachable from a fresh `DynamicBitVector` by successful public
operations. -/
inductive Reach : DynamicBitVector → Prop where
  | base : Reach DynamicBitVector.new
  | push {s t : DynamicBitVector} {b : Bool} : Reach s →
      DynamicBitVector.push s b = .ok t → Reach t
  | insert {s t : DynamicBitVector} {i : Nat} {b : Bool} : Reach s →
      DynamicBitVector.insert s i b = .ok t → Reach t
  | delete {s t : DynamicBitVector} {i : Nat} : Reach s →
      DynamicBitVector.delete s i = .ok t → Reach t
  | flip {s t : DynamicBitVector} {i : Nat} : Reach s →
      DynamicBitVector.flip s i = .ok t → Reach t

/-! ## Claims -/

/-- **C1.** The claim states that `rank(b, i)` returns the number of
`b`-valued bits in global positions `[0, i)`.  On the reachable vector
`[1, 0]` (`push(true); push(false)`) the stored sequence is
`[true, false]` and the bit at position 0 is `1`, so `rank(1, 1)` should
be `1`; the code returns `0`, because `Leaf::rank` popcounts
`value >> index` — the bits at positions `≥ index` — instead of the
prefix `[0, index)`. -/
theorem C1_rank_counts_suffix_not_prefix :
    (do
      let s ← sTF
      pure (bitsOf s)) = Res.ok (some [true, false]) ∧
    (do
      let s ← sTF
      DynamicBitVector.access s 0) = Res.ok true ∧
    countB [true] true = 1 ∧
    (do
      let s ← sTF
      DynamicBitVector.rank s true 1) = Res.ok 0 := by
  decide

set_option maxRecDepth 10000 in
/-- **C2.** The claim states that the `select` descent compares `n` with
`ones` for `b = 1` (with `nums − ones` for `b = 0`), subtracts the
left-subtree `b`-count when going right, and returns the position of the
`(n+1)`-th `b`-bit.  The code compares with `nums − ones` regardless of
`b` and subtracts `nums`.  On the reachable vector holding ten `1`s,
fifty-four `0`s and sixty-four `1`s, the 21st one-bit sits at position 74,
but `select(1, 20)` descends left (because `nums − ones = 54 > 20`,
although `ones = 10 ≤ 20`) and returns 64, the not-found sentinel of the
PDEP/TZCNT leaf select. -/
theorem C2_select_descent_uses_wrong_counters :
    (do
      let s ← sMix
      pure ((bitsOf s).map (fun l => nthPos l true 20))) =
        Res.ok (some (some 74)) ∧
    (do
      let s ← sMix
      DynamicBitVector.select s true 20) = Res.ok 64 := by
  decide

set_option maxRecDepth 10000 in
/-- **C3.** The claim states that in every reachable state each node's
`nums`/`ones` equal the used-bit count and popcount of its left subtree
(invariant P1, asserted by the source's own `validate_node`).  After 384
pushes of `true` the invariant holds, but one `flip(64)` — which edits a
leaf that hangs under a right edge below a left edge — breaks it:
`update_left_values` stops at the first right-child step, so the root
keeps `ones = 128` although its left subtree now holds 127 ones. -/
theorem C3_flip_breaks_aggregate_invariant :
    (do
      let s ← sPush384
      pure (checkP1 s)) = Res.ok true ∧
    (do
      let s ← sPush384
      let t ← DynamicBitVector.flip s 64
      pure (checkP1 t)) = Res.ok false ∧
    (do
      let s ← sPush384
      let t ← DynamicBitVector.flip s 64
      DynamicBitVector.ones t) = Res.ok 128 ∧
    (do
      let s ← sPush384
      let t ← DynamicBitVector.flip s 64
      pure ((bitsOf t).map (fun l => countB l true))) = Res.ok (some 383) := by
  decide

/-- **C5.** The claim states that `Leaf` insert at `i ≤ used < W` keeps
bits `[0, i)`, writes `b` at `i`, shifts `[i, used)` up — the mask formula
`((value & (!0 << i)) << 1) | (b << i) | (value & !(!0 << i))` — and fails
with `Full`/`OutOfBounds` otherwise.  The code builds its masks with
`MAX << (BITS - index)` / `MAX >> index`: inserting `true` at index 1 into
the one-bit leaf `[1]` must give value 3 (`spec` formula) but gives value
2, dropping the stored bit 0; and at index 0 the mask shift `MAX << 64`
overflows, so the insert panics instead of succeeding. -/
theorem C5_leaf_insert_shifts_wrong_half :
    Leaf.insertDyn (Leaf.create 0 1 1) 1 true = Res.ok (Leaf.create 0 2 2) ∧
    specInsertValue 1 1 true = 3 ∧
    Leaf.insertDyn (Leaf.create 0 1 1) 0 false = Res.fail Fail.died := by
  decide

/-- **C6.** The claim states that out-of-range `insert`/`delete`/`flip`
detect the violation before any mutation and return `OutOfBounds` with no
side effects.  On the length-1 vector `[1]`: `insert(5, 1)` returns `Ok`
and writes bit 5 of the leaf (the tree calls the inherent, unchecked
`Leaf::insert`); `delete(5)` returns `Ok` and decrements the leaf to zero
bits; `flip(1)` (which cannot even report errors — it returns unit)
flips an unused bit.  All three mutate the state and none reports
`OutOfBounds`. -/
theorem C6_out_of_bounds_mutates_without_error :
    sT1 = Res.ok c6Base ∧
    DynamicBitVector.len c6Base = Res.ok 1 ∧
    DynamicBitVector.insert c6Base 5 true =
      Res.ok ⟨0, [Node.create none none (some (-1)) 0 0 1],
        [Leaf.new 0, Leaf.create 0 32 2]⟩ ∧
    DynamicBitVector.delete c6Base 5 =
      Res.ok ⟨0, [Node.create none none (some (-1)) 0 0 1],
        [Leaf.new 0, Leaf.create 0 1 0]⟩ ∧
    DynamicBitVector.flip c6Base 1 =
      Res.ok ⟨0, [Node.create none none (some (-1)) 0 0 1],
        [Leaf.new 0, Leaf.create 0 3 1]⟩ := by
  decide

/-- **C7.** The claim states that when fewer than `n+1` `b`-bits exist,
`select(b, n)` fails with a `NotFound` error.  The code's `select` returns
a plain `usize` with no error channel: on the vector `[1]` (a single
one-bit), `select(1, 1)` returns the out-of-range position 64 (TZCNT of
the zero word produced by PDEP) instead of an error. -/
theorem C7_select_returns_garbage_instead_of_notfound :
    (do
      let s ← sT1
      pure ((bitsOf s).map (fun l => countB l true))) = Res.ok (some 1) ∧
    (do
      let s ← sT1
      DynamicBitVector.len s) = Res.ok 1 ∧
    (do
      let s ← sT1
      DynamicBitVector.select s true 1) = Res.ok 64 := by
  decide

set_option maxRecDepth 10000 in
/-- **C8.** The claim states that `ones()` returns the total number of
1-bits of the whole tree and `len()` the total number of stored bits
(e.g. 384 and 384 after pushing 384 ones).  After 384 pushes of `true`,
`len()` is indeed 384, but `ones()` returns `self[self.root].ones`, the
1-count of the root's *left subtree* only: 128, not the documented global
total of 384. -/
theorem C8_ones_returns_left_subtree_count :
    (do
      let s ← sPush384
      DynamicBitVector.len s) = Res.ok 384 ∧
    (do
      let s ← sPush384
      pure ((bitsOf s).map (fun l => countB l true))) = Res.ok (some 384) ∧
    (do
      let s ← sPush384
      DynamicBitVector.ones s) = Res.ok 128 := by
  decide

/-- **C9.** The claim states that `extend_from(other)` appends `other`'s
bits directly after `self`'s used bits, so with `self = [1,1]` (value 3,
used 2) and `other = [1]` (value 1, used 1) position 2 of the result must
hold `other`'s first bit, `1`.  The code computes
`value |= other.value << other.nums` — shifting by `other.nums` instead of
`self.nums` — giving value 3 again: position 2 of the result is `0`
although `other`'s bit 0 is `1`. -/
theorem C9_extend_from_shifts_by_wrong_amount :
    Leaf.extendFrom (Leaf.create 0 3 2) (Leaf.create 0 1 1) =
      Res.ok (Leaf.create 0 3 3) ∧
    Leaf.access (Leaf.create 0 1 1) 0 = Res.ok true ∧
    Leaf.access (Leaf.create 0 3 3) 2 = Res.ok false := by
  decide

/-- **C10.** On a freshly constructed `DynamicBitVector` (one root node
with no children plus the sentinel leaf), every query — `access(i)`,
`rank(b, i)`, `select(b, n)` and `len()` — takes the right branch (the
root's `nums` is 0) and panics unwrapping the absent right child; after a
single push has created a leaf, queries return values. -/
theorem C10_fresh_tree_queries_unwrap_panic :
    (∀ i, DynamicBitVector.access DynamicBitVector.new i =
      Res.fail Fail.died) ∧
    (∀ b i, DynamicBitVector.rank DynamicBitVector.new b i =
      Res.fail Fail.died) ∧
    (∀ b n, DynamicBitVector.select DynamicBitVector.new b n =
      Res.fail Fail.died) ∧
    DynamicBitVector.len DynamicBitVector.new = Res.fail Fail.died ∧
    (∀ b, (do
      let s ← DynamicBitVector.push DynamicBitVector.new b
      DynamicBitVector.access s 0) = Res.ok b) ∧
    (∀ b, (do
      let s ← DynamicBitVector.push DynamicBitVector.new b
      DynamicBitVector.len s) = Res.ok 1) := by
  refine ⟨fun i => ?_, fun b i => ?_, fun b n => ?_, rfl, fun b => ?_,
    fun b => ?_⟩
  case _ => show (if (0 : Nat) ≤ i then _ else _) = _
            rw [if_pos (Nat.zero_le i)]
            exact rfl
  case _ => show (if (0 : Nat) ≤ i then _ else _) = _
            rw [if_pos (Nat.zero_le i)]
            exact rfl
  case _ => show (if (0 : Nat) ≤ n then _ else _) = _
            rw [if_pos (Nat.zero_le n)]
            exact rfl
  case _ => cases b <;> decide
  case _ => cases b <;> decide

/-! ## Proof infrastructure for claim C4 -/

theorem Res.bind_ok {α β : Type} {x : Res α} {f : α → Res β} {b : β}
    (h : x >>= f = Res.ok b) : ∃ a, x = Res.ok a ∧ f a = Res.ok b := by
  cases x with
  | ok a => exact ⟨a, rfl, h⟩
  | fail e => exact Res.noConfusion h

theorem Res.ok_inj {α : Type} {a b : α} (h : Res.ok a = Res.ok b) : a = b := by
  cases h; rfl

theorem unwrapO_ok {α : Type} {o : Option α} {a : α}
    (h : unwrapO o = Res.ok a) : o = some a := by
  cases o with
  | none => exact Res.noConfusion h
  | some b => cases Res.ok_inj h; rfl

theorem subU_ok {a b c : Nat} (h : subU a b = Res.ok c) :
    c = a - b ∧ b ≤ a := by
  unfold subU at h
  split at h
  · exact ⟨(Res.ok_inj h).symm, by assumption⟩
  · exact Res.noConfusion h

theorem getNode_ok {s : DynamicBitVector} {i : Nat} {nd : Node}
    (h : s.getNode i = Res.ok nd) : s.nodes.get? i = some nd := by
  unfold DynamicBitVector.getNode at h
  exact unwrapO_ok h

theorem getLeaf_ok {s : DynamicBitVector} {i : Int} {l : Leaf}
    (h : s.getLeaf i = Res.ok l) : s.leafs.get? i.natAbs = some l := by
  unfold DynamicBitVector.getLeaf at h
  exact unwrapO_ok h

theorem modifyNode_ok {s : DynamicBitVector} {i : Nat} {f : Node → Node}
    {t : DynamicBitVector} (h : s.modifyNode i f = Res.ok t) :
    ∃ nd, s.nodes.get? i = some nd ∧
      t = { s with nodes := s.nodes.set i (f nd) } := by
  unfold DynamicBitVector.modifyNode at h
  split at h
  · exact Res.noConfusion h
  · next nd hg => exact ⟨nd, hg, (Res.ok_inj h).symm⟩

theorem modifyLeaf_ok {s : DynamicBitVector} {i : Int} {f : Leaf → Leaf}
    {t : DynamicBitVector} (h : s.modifyLeaf i f = Res.ok t) :
    ∃ l, s.leafs.get? i.natAbs = some l ∧
      t = { s with leafs := s.leafs.set i.natAbs (f l) } := by
  unfold DynamicBitVector.modifyLeaf at h
  split at h
  · exact Res.noConfusion h
  · next l hg => exact ⟨l, hg, (Res.ok_inj h).symm⟩

theorem get?_set_cases {α : Type} {l : List α} {i j : Nat} {a b : α}
    (h : (l.set i a).get? j = some b) :
    (i = j ∧ b = a ∧ j < l.length) ∨ (i ≠ j ∧ l.get? j = some b) := by
  by_cases hij : i = j
  · subst hij
    by_cases hlen : i < l.length
    · rw [List.get?_set_eq_of_lt _ hlen] at h
      exact Or.inl ⟨rfl, (Option.some_inj.mp h).symm, hlen⟩
    · rw [List.set_eq_of_length_le (Nat.le_of_not_lt hlen)] at h
      have := List.get?_eq_none.mpr (Nat.le_of_not_lt hlen)
      rw [this] at h
      exact Option.noConfusion h
  · rw [List.get?_set_ne _ _ hij] at h
    exact Or.inr ⟨hij, h⟩

theorem ranksOk_set {s : DynamicBitVector} {i : Nat} {nd : Node}
    (hR : ranksOk s) (hnd : nodeOk nd) :
    ranksOk { s with nodes := s.nodes.set i nd } := by
  intro j m hm
  rcases get?_set_cases hm with ⟨_, rfl, _⟩ | ⟨_, hm2⟩
  · exact hnd
  · exact hR j m hm2

theorem ptrOk_set {s : DynamicBitVector} {i : Nat} {nd : Node}
    (hP : ptrOk s) (hl : childBound s.nodes.length nd.left)
    (hr : childBound s.nodes.length nd.right) :
    ptrOk { s with nodes := s.nodes.set i nd } := by
  intro j m hm
  simp only [List.length_set]
  rcases get?_set_cases hm with ⟨_, rfl, _⟩ | ⟨_, hm2⟩
  · exact ⟨hl, hr⟩
  · exact hP j m hm2

/-- Transport of the node-facts along states with identical node arenas and
leaf-arena length. -/
theorem inv_transport {s t : DynamicBitVector} (hn : t.nodes = s.nodes)
    (hl : t.leafs.length = s.leafs.length) (h : Inv s) : Inv t := by
  obtain ⟨h1, h2, h3, h4⟩ := h
  refine ⟨fun i nd hm => h1 i nd (hn ▸ hm), fun i nd hm => ?_, ?_, ?_⟩
  · rw [hn]; exact h2 i nd (hn ▸ hm)
  · rw [hn, hl]; exact h3
  · rw [hn, hl]; exact fun h5 => h4 (hl ▸ h5)

theorem waiting_transport {s t : DynamicBitVector} (hn : t.nodes = s.nodes)
    {w : Nat} (h : waiting s w) : waiting t w :=
  fun nd hm => h nd (hn ▸ hm)

/-- A `modifyNode` whose update keeps the rank and both child pointers
preserves every node-shape fact. -/
theorem modify_keep {s t : DynamicBitVector} {i : Nat} {f : Node → Node}
    (h : s.modifyNode i f = Res.ok t)
    (hf : ∀ nd, (f nd).rank = nd.rank ∧ (f nd).left = nd.left ∧
      (f nd).right = nd.right) :
    t.nodes.length = s.nodes.length ∧ t.leafs = s.leafs ∧
      (ranksOk s → ranksOk t) ∧ (ptrOk s → ptrOk t) ∧
      (∀ w, waiting s w → waiting t w) ∧
      (∀ j, j ≠ i → t.nodes.get? j = s.nodes.get? j) ∧
      (∀ nd, s.nodes.get? i = some nd → t.nodes.get? i = some (f nd)) := by
  obtain ⟨nd, hg, rfl⟩ := modifyNode_ok h
  have hlen : i < s.nodes.length := (List.get?_eq_some.mp hg).1
  refine ⟨List.length_set _ _ _, rfl, ?_, ?_, ?_, ?_, ?_⟩
  · intro hR
    refine ranksOk_set hR ?_
    have := hR i nd hg
    obtain ⟨e1, e2, e3⟩ := hf nd
    unfold nodeOk at this ⊢
    rw [e1, e2, e3]
    exact this
  · intro hP
    refine ptrOk_set hP ?_ ?_
    · rw [(hf nd).2.1]; exact (hP i nd hg).1
    · rw [(hf nd).2.2]; exact (hP i nd hg).2
  · intro w hw nd2 hm
    rcases get?_set_cases hm with ⟨rfl, rfl, _⟩ | ⟨_, hm2⟩
    · obtain ⟨e1, _, e3⟩ := hf nd
      rw [e1, e3]
      exact hw nd hg
    · exact hw nd2 hm2
  · intro j hj
    exact List.get?_set_ne _ _ (fun e => hj e.symm)
  · intro nd2 hg2
    rw [hg] at hg2
    cases Option.some_inj.mp hg2
    exact List.get?_set_eq_of_lt _ hlen

/-- `modifyLeaf` leaves the node arena untouched and keeps the leaf-arena
length. -/
theorem modifyLeaf_same {s t : DynamicBitVector} {i : Int} {f : Leaf → Leaf}
    (h : s.modifyLeaf i f = Res.ok t) :
    t.nodes = s.nodes ∧ t.leafs.length = s.leafs.length := by
  obtain ⟨l, _, rfl⟩ := modifyLeaf_ok h
  exact ⟨rfl, List.length_set _ _ _⟩

theorem updateLeftValuesOnly_facts {fuel : Nat} {s : DynamicBitVector}
    {node : Nat} {child : Int} {t : DynamicBitVector} {b : Bool}
    (h : DynamicBitVector.updateLeftValuesOnly fuel s node child =
      Res.ok (t, b)) :
    t.nodes.length = s.nodes.length ∧ t.leafs = s.leafs ∧
      (ranksOk s → ranksOk t) ∧ (ptrOk s → ptrOk t) ∧
      (∀ w, waiting s w → waiting t w) := by
  unfold DynamicBitVector.updateLeftValuesOnly at h
  obtain ⟨nd, hnd, h⟩ := Res.bind_ok h
  split at h
  · split at h
    · obtain ⟨pr, hpr, h⟩ := Res.bind_ok h
      obtain ⟨t2, ht2, h⟩ := Res.bind_ok h
      cases Res.ok_inj h
      obtain ⟨e1, e2, e3, e4, e5, _, _⟩ :=
        modify_keep ht2 (fun _ => ⟨rfl, rfl, rfl⟩)
      exact ⟨e1, e2, e3, e4, e5⟩
    · cases Res.ok_inj h
      exact ⟨rfl, rfl, fun x => x, fun x => x, fun _ x => x⟩
  · cases Res.ok_inj h
    exact ⟨rfl, rfl, fun x => x, fun x => x, fun _ x => x⟩

theorem updateLeftValues_succ (n : Nat) (s : DynamicBitVector) (node : Nat)
    (child : Int) :
    DynamicBitVector.updateLeftValues (n + 1) s node child = (do
      let p ← DynamicBitVector.updateLeftValuesOnly n s node child
      let s2 := p.1
      if p.2 then do
        let nd ← s2.getNode node
        match nd.parent with
        | some par => DynamicBitVector.updateLeftValues n s2 par (Int.ofNat node)
        | none => pure s2
      else pure s2) := rfl

/-- Pointwise description of a `modifyNode`. -/
theorem modifyNode_get {s : DynamicBitVector} {i : Nat} {f : Node → Node}
    {t : DynamicBitVector} (h : s.modifyNode i f = Res.ok t) :
    (∀ j, j ≠ i → t.nodes.get? j = s.nodes.get? j) ∧
      (∃ nd, s.nodes.get? i = some nd ∧ t.nodes.get? i = some (f nd)) ∧
      t.nodes.length = s.nodes.length ∧ t.leafs = s.leafs := by
  obtain ⟨nd, hg, rfl⟩ := modifyNode_ok h
  have hlen : i < s.nodes.length := (List.get?_eq_some.mp hg).1
  refine ⟨fun j hj => List.get?_set_ne _ _ (fun e => hj e.symm),
    ⟨nd, hg, List.get?_set_eq_of_lt _ hlen⟩, List.length_set _ _ _, rfl⟩

/-- Pointwise description of a `replaceChild`: one child pointer of `p`
changes from `some a` to `some b`; rank and the other pointer survive. -/
theorem replaceChild_get {s : DynamicBitVector} {p : Nat} {a b : Int}
    {t : DynamicBitVector}
    (h : DynamicBitVector.replaceChild s p a b = Res.ok t) :
    (∀ j, j ≠ p → t.nodes.get? j = s.nodes.get? j) ∧
      (∃ pn, s.nodes.get? p = some pn ∧
        ((pn.left = some a ∧
          t.nodes.get? p = some { pn with left := some b }) ∨
         (pn.right = some a ∧
          t.nodes.get? p = some { pn with right := some b }))) ∧
      t.nodes.length = s.nodes.length ∧ t.leafs = s.leafs := by
  unfold DynamicBitVector.replaceChild at h
  obtain ⟨pn, hpn, h⟩ := Res.bind_ok h
  obtain ⟨pn2, hpn2, h⟩ := Res.bind_ok h
  have hg := getNode_ok hpn
  have hlen : p < s.nodes.length := (List.get?_eq_some.mp hg).1
  unfold Node.replaceChildWith at hpn2
  obtain ⟨nd0, hg0, rfl⟩ := modifyNode_ok h
  refine ⟨fun j hj => List.get?_set_ne _ _ (fun e => hj e.symm),
    ⟨pn, hg, ?_⟩, List.length_set _ _ _, rfl⟩
  split at hpn2
  · cases Res.ok_inj hpn2
    exact Or.inl ⟨by assumption, List.get?_set_eq_of_lt _ hlen⟩
  · split at hpn2
    · cases Res.ok_inj hpn2
      exact Or.inr ⟨by assumption, List.get?_set_eq_of_lt _ hlen⟩
    · exact Res.noConfusion hpn2

theorem updateLeftValues_facts : ∀ (fuel : Nat) {s : DynamicBitVector}
    {node : Nat} {child : Int} {t : DynamicBitVector},
    DynamicBitVector.updateLeftValues fuel s node child = Res.ok t →
    t.nodes.length = s.nodes.length ∧ t.leafs = s.leafs ∧
      (ranksOk s → ranksOk t) ∧ (ptrOk s → ptrOk t) ∧
      (∀ w, waiting s w → waiting t w) := by
  intro fuel
  induction fuel with
  | zero => intro s node child t h; exact Res.noConfusion h
  | succ n ih =>
    intro s node child t h
    rw [updateLeftValues_succ] at h
    obtain ⟨⟨s2, b⟩, h1, h⟩ := Res.bind_ok h
    obtain ⟨e1, e2, e3, e4, e5⟩ := updateLeftValuesOnly_facts h1
    simp only [] at h
    split at h
    · obtain ⟨nd, _, h⟩ := Res.bind_ok h
      split at h
      · obtain ⟨f1, f2, f3, f4, f5⟩ := ih h
        exact ⟨f1.trans e1, f2.trans e2, fun hr => f3 (e3 hr),
          fun hp => f4 (e4 hp), fun w hw => f5 w (e5 w hw)⟩
      · cases Res.ok_inj h
        exact ⟨e1, e2, e3, e4, e5⟩
    · cases Res.ok_inj h
      exact ⟨e1, e2, e3, e4, e5⟩

/-! ### Generic single-write preservation lemmas -/

theorem nodeOk_rank0 {nd : Node} (h : nd.rank = 0) : nodeOk nd := by
  unfold nodeOk
  rw [h]
  exact ⟨by decide, fun _ => by decide, fun _ => by decide⟩

theorem nodeOk_congr {nd m : Node} (hr : m.rank = nd.rank)
    (hl : m.left = nd.left) (hrt : m.right = nd.right) (h : nodeOk nd) :
    nodeOk m := by
  unfold nodeOk at h ⊢
  rw [hr, hl, hrt]
  exact h

theorem nodeOk_setLeft {nd : Node} {v : Int} (h : nodeOk nd) :
    nodeOk { nd with left := some v } := by
  obtain ⟨h1, h2, h3⟩ := h
  exact ⟨h1, h2, fun he => Option.noConfusion he⟩

theorem nodeOk_setRight {nd : Node} {v : Int} (h : nodeOk nd) :
    nodeOk { nd with right := some v } := by
  obtain ⟨h1, h2, h3⟩ := h
  exact ⟨h1, fun he => Option.noConfusion he, h3⟩

theorem okExcept_mono {s : DynamicBitVector} {E E2 : Nat → Prop}
    (himp : ∀ i, E i → E2 i) (hA : okExcept s E) : okExcept s E2 :=
  fun i nd hm hn => hA i nd hm (fun he => hn (himp i he))

theorem ranksOk_of_okExcept {s : DynamicBitVector} {E : Nat → Prop}
    (hE : ∀ i, ¬ E i) (hA : okExcept s E) : ranksOk s :=
  fun i nd hm => hA i nd hm (hE i)

theorem okExcept_of_ranksOk {s : DynamicBitVector} {E : Nat → Prop}
    (hR : ranksOk s) : okExcept s E :=
  fun i nd hm _ => hR i nd hm

theorem okExcept_transport {s t : DynamicBitVector} (hn : t.nodes = s.nodes)
    {E : Nat → Prop} (h : okExcept s E) : okExcept t E :=
  fun i nd hm => h i nd (hn ▸ hm)

theorem ptrOk_transport {s t : DynamicBitVector} (hn : t.nodes = s.nodes)
    (h : ptrOk s) : ptrOk t := by
  intro i nd hm
  rw [hn]
  exact h i nd (hn ▸ hm)

theorem okExcept_step {s2 s3 : DynamicBitVector} {E : Nat → Prop} {i : Nat}
    {f : Node → Node} (h : s2.modifyNode i f = Res.ok s3)
    (hkeep : ∀ nd, nodeOk nd → nodeOk (f nd))
    (hA : okExcept s2 E) : okExcept s3 E := by
  obtain ⟨hne, ⟨nd, hnd, hi⟩, _, _⟩ := modifyNode_get h
  intro j m hm hj
  by_cases hji : j = i
  · subst hji
    rw [hi] at hm
    cases Option.some_inj.mp hm
    exact hkeep nd (hA j nd hnd hj)
  · exact hA j m ((hne j hji) ▸ hm) hj

theorem okExcept_step_exempt {s2 s3 : DynamicBitVector} {E : Nat → Prop}
    {i : Nat} {f : Node → Node} (h : s2.modifyNode i f = Res.ok s3)
    (hi : E i) (hA : okExcept s2 E) : okExcept s3 E := by
  obtain ⟨hne, _, _, _⟩ := modifyNode_get h
  intro j m hm hj
  by_cases hji : j = i
  · subst hji
    exact absurd hi hj
  · exact hA j m ((hne j hji) ▸ hm) hj

theorem ptrOk_step {s2 s3 : DynamicBitVector} {i : Nat} {f : Node → Node}
    (h : s2.modifyNode i f = Res.ok s3)
    (hkeep : ∀ nd, s2.nodes.get? i = some nd →
      childBound s2.nodes.length (f nd).left ∧
      childBound s2.nodes.length (f nd).right)
    (hP : ptrOk s2) : ptrOk s3 := by
  obtain ⟨nd, hg, rfl⟩ := modifyNode_ok h
  exact ptrOk_set hP (hkeep nd hg).1 (hkeep nd hg).2

theorem waiting_step {s2 s3 : DynamicBitVector} {i : Nat} {f : Node → Node}
    {w : Nat} (h : s2.modifyNode i f = Res.ok s3)
    (hkeep : ∀ nd, nd.right = none ∧ nd.rank ≤ 0 →
      (f nd).right = none ∧ (f nd).rank ≤ 0)
    (hW : waiting s2 w) : waiting s3 w := by
  obtain ⟨hne, ⟨nd, hnd, hi⟩, _, _⟩ := modifyNode_get h
  intro m hm
  by_cases hwi : w = i
  · subst hwi
    rw [hi] at hm
    cases Option.some_inj.mp hm
    exact hkeep nd (hW nd hnd)
  · exact hW m ((hne w hwi) ▸ hm)

theorem waiting_step_ne {s2 s3 : DynamicBitVector} {i : Nat} {f : Node → Node}
    {w : Nat} (h : s2.modifyNode i f = Res.ok s3) (hwi : w ≠ i)
    (hW : waiting s2 w) : waiting s3 w := by
  obtain ⟨hne, _, _, _⟩ := modifyNode_get h
  intro m hm
  exact hW m ((hne w hwi) ▸ hm)

theorem okExcept_replaceChild {s2 s3 : DynamicBitVector} {E : Nat → Prop}
    {p : Nat} {a b : Int}
    (h : DynamicBitVector.replaceChild s2 p a b = Res.ok s3)
    (hA : okExcept s2 E) : okExcept s3 E := by
  obtain ⟨hne, ⟨pn, hpn, hcase⟩, _, _⟩ := replaceChild_get h
  intro j m hm hj
  by_cases hjp : j = p
  · subst hjp
    rcases hcase with ⟨_, hi⟩ | ⟨_, hi⟩
    · rw [hi] at hm
      cases Option.some_inj.mp hm
      exact nodeOk_setLeft (hA j pn hpn hj)
    · rw [hi] at hm
      cases Option.some_inj.mp hm
      exact nodeOk_setRight (hA j pn hpn hj)
  · exact hA j m ((hne j hjp) ▸ hm) hj

theorem ptrOk_replaceChild {s2 s3 : DynamicBitVector} {p : Nat} {a b : Int}
    (h : DynamicBitVector.replaceChild s2 p a b = Res.ok s3)
    (hb : 0 ≤ b → b.toNat < s2.nodes.length)
    (hP : ptrOk s2) : ptrOk s3 := by
  obtain ⟨hne, ⟨pn, hpn, hcase⟩, hL, _⟩ := replaceChild_get h
  intro j m hm
  rw [hL]
  by_cases hjp : j = p
  · subst hjp
    rcases hcase with ⟨_, hi⟩ | ⟨_, hi⟩
    · rw [hi] at hm
      cases Option.some_inj.mp hm
      exact ⟨fun k hk h0 => by cases Option.some_inj.mp hk; exact hb h0,
        (hP j pn hpn).2⟩
    · rw [hi] at hm
      cases Option.some_inj.mp hm
      exact ⟨(hP j pn hpn).1,
        fun k hk h0 => by cases Option.some_inj.mp hk; exact hb h0⟩
  · exact hP j m ((hne j hjp) ▸ hm)

theorem waiting_replaceChild {s2 s3 : DynamicBitVector} {p : Nat} {a b : Int}
    {w : Nat} (h : DynamicBitVector.replaceChild s2 p a b = Res.ok s3)
    (hW : waiting s2 w) : waiting s3 w := by
  obtain ⟨hne, ⟨pn, hpn, hcase⟩, _, _⟩ := replaceChild_get h
  intro m hm
  by_cases hwp : w = p
  · subst hwp
    rcases hcase with ⟨_, hi⟩ | ⟨hr, hi⟩
    · rw [hi] at hm
      cases Option.some_inj.mp hm
      exact hW pn hpn
    · rw [(hW pn hpn).1] at hr
      exact Option.noConfusion hr
  · exact hW m ((hne w hwp) ▸ hm)

theorem keep_step_all (E : Nat → Prop) {s2 s3 : DynamicBitVector} {i : Nat}
    {f : Node → Node} (h : s2.modifyNode i f = Res.ok s3)
    (hf : ∀ nd, (f nd).rank = nd.rank ∧ (f nd).left = nd.left ∧
      (f nd).right = nd.right) :
    (okExcept s2 E → okExcept s3 E) ∧ (ptrOk s2 → ptrOk s3) ∧
      s3.nodes.length = s2.nodes.length ∧ s3.leafs = s2.leafs ∧
      (∀ w, waiting s2 w → waiting s3 w) := by
  obtain ⟨e1, e2, _, e4, e5, _, _⟩ := modify_keep h hf
  exact ⟨okExcept_step h (fun nd hok =>
      nodeOk_congr (hf nd).1 (hf nd).2.1 (hf nd).2.2 hok),
    e4, e1, e2, e5⟩

/-! ### Rotations preserve the balance invariant -/

theorem rotL_core {s5 t : DynamicBitVector} {z x : Nat} {E : Nat → Prop}
    (hA : okExcept s5 (fun i => E i ∨ i = z ∨ i = x)) (hP : ptrOk s5)
    (hxlen : x < s5.nodes.length)
    (h : (s5.modifyNode z (fun nd => { nd with left := some (Int.ofNat x) }) >>=
        fun s6 =>
      s6.modifyNode z (fun nd => { nd with rank := 0 }) >>= fun s7 =>
      s7.modifyNode x (fun nd => { nd with rank := 0 }) >>= fun s8 =>
      s8.getNode x >>= fun xn3 =>
      s8.modifyNode z (fun nd =>
        { nd with nums := nd.nums + xn3.nums, ones := nd.ones + xn3.ones })) =
      Res.ok t) :
    okExcept t E ∧ ptrOk t ∧ t.nodes.length = s5.nodes.length ∧
      t.leafs.length = s5.leafs.length ∧
      (∀ w, waiting s5 w → waiting t w) := by
  obtain ⟨s6, h6, h⟩ := Res.bind_ok h
  obtain ⟨s7, h7, h⟩ := Res.bind_ok h
  obtain ⟨s8, h8, h⟩ := Res.bind_ok h
  obtain ⟨xn3, hxn3, h10⟩ := Res.bind_ok h
  have hA6 : okExcept s6 (fun i => E i ∨ i = z ∨ i = x) :=
    okExcept_step_exempt h6 (Or.inr (Or.inl rfl)) hA
  have hP6 : ptrOk s6 :=
    ptrOk_step h6 (fun nd hg =>
      ⟨fun k hk h0 => by
          cases Option.some_inj.mp hk
          exact hxlen,
        (hP z nd hg).2⟩) hP
  obtain ⟨g6ne, _, g6L, g6F⟩ := modifyNode_get h6
  obtain ⟨g7ne, ⟨nd7, hnd7, hg7⟩, g7L, g7F⟩ := modifyNode_get h7
  have hA7 : okExcept s7 (fun i => E i ∨ i = z ∨ i = x) :=
    okExcept_step_exempt h7 (Or.inr (Or.inl rfl)) hA6
  have hP7 : ptrOk s7 := ptrOk_step h7 (fun nd hg => hP6 z nd hg) hP6
  obtain ⟨g8ne, ⟨nd8, hnd8, hg8⟩, g8L, g8F⟩ := modifyNode_get h8
  have hA8 : okExcept s8 (fun i => E i ∨ i = z ∨ i = x) :=
    okExcept_step_exempt h8 (Or.inr (Or.inr rfl)) hA7
  have hP8 : ptrOk s8 := ptrOk_step h8 (fun nd hg => hP7 x nd hg) hP7
  have hxf : ∀ m, s8.nodes.get? x = some m → m.rank = 0 := by
    intro m hm
    rw [hg8] at hm
    cases Option.some_inj.mp hm
    rfl
  have hzf : ∀ m, s8.nodes.get? z = some m → m.rank = 0 := by
    intro m hm
    by_cases hzx : z = x
    · exact hxf m (hzx ▸ hm)
    · rw [g8ne z hzx, hg7] at hm
      cases Option.some_inj.mp hm
      rfl
  obtain ⟨g10ne, ⟨nd10, hnd10, hg10⟩, g10L, g10F⟩ := modifyNode_get h10
  refine ⟨?_, ?_, ?_, ?_, ?_⟩
  · intro j m hm hj
    by_cases hjz : j = z
    · subst hjz
      rw [hg10] at hm
      cases Option.some_inj.mp hm
      exact nodeOk_rank0 (hzf nd10 hnd10)
    · rw [g10ne j hjz] at hm
      by_cases hjx : j = x
      · subst hjx
        exact nodeOk_rank0 (hxf m hm)
      · exact hA8 j m hm (fun hc => hc.elim hj (fun hc2 => hc2.elim hjz hjx))
  · exact ptrOk_step h10 (fun nd hg => hP8 z nd hg) hP8
  · rw [g10L, g8L, g7L, g6L]
  · rw [g10F, g8F, g7F, g6F]
  · intro w hw
    have w6 := waiting_step h6 (fun nd hp => hp) hw
    have w7 := waiting_step h7 (fun nd hp => ⟨hp.1, Int.le_refl 0⟩) w6
    have w8 := waiting_step h8 (fun nd hp => ⟨hp.1, Int.le_refl 0⟩) w7
    exact waiting_step h10 (fun nd hp => hp) w8

theorem rotL_tail {s2 t : DynamicBitVector} {z x : Nat} {E : Nat → Prop}
    (hA : okExcept s2 (fun i => E i ∨ i = z ∨ i = x)) (hP : ptrOk s2)
    (h : (s2.modifyNode x (fun nd => { nd with parent := some z }) >>= fun s3 =>
      s3.getNode z >>= fun zn2 =>
      s3.modifyNode x (fun nd => { nd with right := zn2.left }) >>= fun s4 =>
      s4.getNode x >>= fun xn2 =>
      unwrapO xn2.right >>= fun r =>
      if 0 ≤ r then
        s4.modifyNode r.toNat (fun nd => { nd with parent := some x }) >>=
          fun s5 =>
        s5.modifyNode z (fun nd => { nd with left := some (Int.ofNat x) }) >>=
          fun s6 =>
        s6.modifyNode z (fun nd => { nd with rank := 0 }) >>= fun s7 =>
        s7.modifyNode x (fun nd => { nd with rank := 0 }) >>= fun s8 =>
        s8.getNode x >>= fun xn3 =>
        s8.modifyNode z (fun nd =>
          { nd with nums := nd.nums + xn3.nums, ones := nd.ones + xn3.ones })
      else
        s4.modifyLeaf r (fun l => { l with parent := x }) >>= fun s5 =>
        s5.modifyNode z (fun nd => { nd with left := some (Int.ofNat x) }) >>=
          fun s6 =>
        s6.modifyNode z (fun nd => { nd with rank := 0 }) >>= fun s7 =>
        s7.modifyNode x (fun nd => { nd with rank := 0 }) >>= fun s8 =>
        s8.getNode x >>= fun xn3 =>
        s8.modifyNode z (fun nd =>
          { nd with nums := nd.nums + xn3.nums, ones := nd.ones + xn3.ones })) =
      Res.ok t) :
    okExcept t E ∧ ptrOk t ∧ t.nodes.length = s2.nodes.length ∧
      t.leafs.length = s2.leafs.length ∧
      (∀ w, w ≠ x → waiting s2 w → waiting t w) := by
  obtain ⟨s3, h3, h⟩ := Res.bind_ok h
  obtain ⟨zn2, hzn2, h⟩ := Res.bind_ok h
  obtain ⟨s4, h4, h⟩ := Res.bind_ok h
  obtain ⟨xn2, hxn2, h⟩ := Res.bind_ok h
  obtain ⟨r, hr, h⟩ := Res.bind_ok h
  obtain ⟨k3A, k3P, k3L, k3F, k3W⟩ :=
    keep_step_all (fun i => E i ∨ i = z ∨ i = x) h3 (fun nd => ⟨rfl, rfl, rfl⟩)
  obtain ⟨g4ne, ⟨nd4, hnd4, hg4⟩, g4L, g4F⟩ := modifyNode_get h4
  have hA4 : okExcept s4 (fun i => E i ∨ i = z ∨ i = x) :=
    okExcept_step_exempt h4 (Or.inr (Or.inr rfl)) (k3A hA)
  have hP4 : ptrOk s4 :=
    ptrOk_step h4 (fun nd hg =>
      ⟨(k3P hP x nd hg).1, (k3P hP z zn2 (getNode_ok hzn2)).1⟩) (k3P hP)
  have hxlen4 : x < s4.nodes.length := by
    rw [g4L]
    exact (List.get?_eq_some.mp hnd4).1
  split at h
  · obtain ⟨s5, h5, h⟩ := Res.bind_ok h
    obtain ⟨kA, kP, kL, kF, kW⟩ :=
      keep_step_all (fun i => E i ∨ i = z ∨ i = x) h5
        (fun nd => ⟨rfl, rfl, rfl⟩)
    obtain ⟨cA, cP, cL, cF, cW⟩ := rotL_core (kA hA4) (kP hP4)
      (by rw [kL]; exact hxlen4) h
    refine ⟨cA, cP, by rw [cL, kL, g4L, k3L], by rw [cF, kF, g4F, k3F], ?_⟩
    intro w hwx hw
    exact cW w (kW w (waiting_step_ne h4 hwx (k3W w hw)))
  · obtain ⟨s5, h5, h⟩ := Res.bind_ok h
    obtain ⟨hn5, hf5⟩ := modifyLeaf_same h5
    obtain ⟨cA, cP, cL, cF, cW⟩ := rotL_core (okExcept_transport hn5 hA4)
      (ptrOk_transport hn5 hP4) (by rw [hn5]; exact hxlen4) h
    refine ⟨cA, cP, by rw [cL, hn5, g4L, k3L], by rw [cF, hf5, g4F, k3F], ?_⟩
    intro w hwx hw
    exact cW w (waiting_transport hn5 (waiting_step_ne h4 hwx (k3W w hw)))

theorem rotateLeft_facts {s t : DynamicBitVector} {z x : Nat} {E : Nat → Prop}
    (hA : okExcept s (fun i => E i ∨ i = z ∨ i = x)) (hP : ptrOk s)
    (h : DynamicBitVector.rotateLeft s z x = Res.ok t) :
    okExcept t E ∧ ptrOk t ∧ t.nodes.length = s.nodes.length ∧
      t.leafs.length = s.leafs.length ∧
      (∀ w, w ≠ x → waiting s w → waiting t w) := by
  unfold DynamicBitVector.rotateLeft at h
  obtain ⟨xn, hxn, h⟩ := Res.bind_ok h
  obtain ⟨s1, h1, h⟩ := Res.bind_ok h
  obtain ⟨zn, hzn, h⟩ := Res.bind_ok h
  simp only [] at h
  obtain ⟨k1A, k1P, k1L, k1F, k1W⟩ :=
    keep_step_all (fun i => E i ∨ i = z ∨ i = x) h1 (fun nd => ⟨rfl, rfl, rfl⟩)
  obtain ⟨_, ⟨nd1, hnd1, _⟩, _, _⟩ := modifyNode_get h1
  have hzlen : z < s.nodes.length := (List.get?_eq_some.mp hnd1).1
  split at h
  · obtain ⟨s2, h2, h⟩ := Res.bind_ok h
    obtain ⟨_, _, bL, bF⟩ := replaceChild_get h2
    have hb : (0 : Int) ≤ Int.ofNat z →
        (Int.ofNat z).toNat < s1.nodes.length := by
      intro _
      show z < s1.nodes.length
      rw [k1L]
      exact hzlen
    obtain ⟨tA, tP, tL, tF, tW⟩ := rotL_tail
      (okExcept_replaceChild h2 (k1A hA))
      (ptrOk_replaceChild h2 hb (k1P hP)) h
    refine ⟨tA, tP, by rw [tL, bL, k1L], by rw [tF, bF, k1F], ?_⟩
    intro w hwx hw
    exact tW w hwx (waiting_replaceChild h2 (k1W w hw))
  · obtain ⟨s2, h2, h⟩ := Res.bind_ok h
    cases Res.ok_inj h2
    have hn2 : ({ s1 with root := z } : DynamicBitVector).nodes = s1.nodes :=
      rfl
    obtain ⟨tA, tP, tL, tF, tW⟩ := rotL_tail
      (okExcept_transport hn2 (k1A hA)) (ptrOk_transport hn2 (k1P hP)) h
    have e1 : ({ s1 with root := z } : DynamicBitVector).nodes.length =
        s.nodes.length := by
      show s1.nodes.length = s.nodes.length
      rw [k1L]
    have e2 : ({ s1 with root := z } : DynamicBitVector).leafs.length =
        s.leafs.length := by
      show s1.leafs.length = s.leafs.length
      rw [k1F]
    refine ⟨tA, tP, tL.trans e1, tF.trans e2, ?_⟩
    intro w hwx hw
    exact tW w hwx (waiting_transport hn2 (k1W w hw))

theorem rotR_core {s5 t : DynamicBitVector} {z x : Nat} {E : Nat → Prop}
    (hA : okExcept s5 (fun i => E i ∨ i = z ∨ i = x)) (hP : ptrOk s5)
    (hxlen : x < s5.nodes.length)
    (h : (s5.modifyNode z (fun nd => { nd with right := some (Int.ofNat x) }) >>=
        fun s6 =>
      s6.modifyNode z (fun nd => { nd with rank := 0 }) >>= fun s7 =>
      s7.modifyNode x (fun nd => { nd with rank := 0 }) >>= fun s8 =>
      s8.getNode x >>= fun xn3 =>
      s8.getNode z >>= fun zn3 =>
      subU xn3.nums zn3.nums >>= fun nm =>
      subU xn3.ones zn3.ones >>= fun om =>
      s8.modifyNode x (fun nd => { nd with nums := nm, ones := om })) =
      Res.ok t) :
    okExcept t E ∧ ptrOk t ∧ t.nodes.length = s5.nodes.length ∧
      t.leafs.length = s5.leafs.length ∧
      (∀ w, w ≠ z → waiting s5 w → waiting t w) := by
  obtain ⟨s6, h6, h⟩ := Res.bind_ok h
  obtain ⟨s7, h7, h⟩ := Res.bind_ok h
  obtain ⟨s8, h8, h⟩ := Res.bind_ok h
  obtain ⟨xn3, hxn3, h⟩ := Res.bind_ok h
  obtain ⟨zn3, hzn3, h⟩ := Res.bind_ok h
  obtain ⟨nm, hnm, h⟩ := Res.bind_ok h
  obtain ⟨om, hom, h10⟩ := Res.bind_ok h
  have hA6 : okExcept s6 (fun i => E i ∨ i = z ∨ i = x) :=
    okExcept_step_exempt h6 (Or.inr (Or.inl rfl)) hA
  have hP6 : ptrOk s6 :=
    ptrOk_step h6 (fun nd hg =>
      ⟨(hP z nd hg).1,
        fun k hk h0 => by
          cases Option.some_inj.mp hk
          exact hxlen⟩) hP
  obtain ⟨g6ne, _, g6L, g6F⟩ := modifyNode_get h6
  obtain ⟨g7ne, ⟨nd7, hnd7, hg7⟩, g7L, g7F⟩ := modifyNode_get h7
  have hA7 : okExcept s7 (fun i => E i ∨ i = z ∨ i = x) :=
    okExcept_step_exempt h7 (Or.inr (Or.inl rfl)) hA6
  have hP7 : ptrOk s7 := ptrOk_step h7 (fun nd hg => hP6 z nd hg) hP6
  obtain ⟨g8ne, ⟨nd8, hnd8, hg8⟩, g8L, g8F⟩ := modifyNode_get h8
  have hA8 : okExcept s8 (fun i => E i ∨ i = z ∨ i = x) :=
    okExcept_step_exempt h8 (Or.inr (Or.inr rfl)) hA7
  have hP8 : ptrOk s8 := ptrOk_step h8 (fun nd hg => hP7 x nd hg) hP7
  have hxf : ∀ m, s8.nodes.get? x = some m → m.rank = 0 := by
    intro m hm
    rw [hg8] at hm
    cases Option.some_inj.mp hm
    rfl
  have hzf : ∀ m, s8.nodes.get? z = some m → m.rank = 0 := by
    intro m hm
    by_cases hzx : z = x
    · exact hxf m (hzx ▸ hm)
    · rw [g8ne z hzx, hg7] at hm
      cases Option.some_inj.mp hm
      rfl
  obtain ⟨g10ne, ⟨nd10, hnd10, hg10⟩, g10L, g10F⟩ := modifyNode_get h10
  refine ⟨?_, ?_, ?_, ?_, ?_⟩
  · intro j m hm hj
    by_cases hjx : j = x
    · subst hjx
      rw [hg10] at hm
      cases Option.some_inj.mp hm
      exact nodeOk_rank0 (hxf nd10 hnd10)
    · rw [g10ne j hjx] at hm
      by_cases hjz : j = z
      · subst hjz
        exact nodeOk_rank0 (hzf m hm)
      · exact hA8 j m hm (fun hc => hc.elim hj (fun hc2 => hc2.elim hjz hjx))
  · exact ptrOk_step h10 (fun nd hg => hP8 x nd hg) hP8
  · rw [g10L, g8L, g7L, g6L]
  · rw [g10F, g8F, g7F, g6F]
  · intro w hwz hw
    have w6 := waiting_step_ne h6 hwz hw
    have w7 := waiting_step h7 (fun nd hp => ⟨hp.1, Int.le_refl 0⟩) w6
    have w8 := waiting_step h8 (fun nd hp => ⟨hp.1, Int.le_refl 0⟩) w7
    exact waiting_step h10 (fun nd hp => hp) w8

theorem rotR_tail {s2 t : DynamicBitVector} {z x : Nat} {E : Nat → Prop}
    (hA : okExcept s2 (fun i => E i ∨ i = z ∨ i = x)) (hP : ptrOk s2)
    (h : (s2.modifyNode x (fun nd => { nd with parent := some z }) >>= fun s3 =>
      s3.getNode z >>= fun zn2 =>
      s3.modifyNode x (fun nd => { nd with left := zn2.right }) >>= fun s4 =>
      s4.getNode x >>= fun xn2 =>
      unwrapO xn2.left >>= fun r =>
      if 0 ≤ r then
        s4.modifyNode r.toNat (fun nd => { nd with parent := some x }) >>=
          fun s5 =>
        s5.modifyNode z (fun nd => { nd with right := some (Int.ofNat x) }) >>=
          fun s6 =>
        s6.modifyNode z (fun nd => { nd with rank := 0 }) >>= fun s7 =>
        s7.modifyNode x (fun nd => { nd with rank := 0 }) >>= fun s8 =>
        s8.getNode x >>= fun xn3 =>
        s8.getNode z >>= fun zn3 =>
        subU xn3.nums zn3.nums >>= fun nm =>
        subU xn3.ones zn3.ones >>= fun om =>
        s8.modifyNode x (fun nd => { nd with nums := nm, ones := om })
      else
        s4.modifyLeaf r (fun l => { l with parent := x }) >>= fun s5 =>
        s5.modifyNode z (fun nd => { nd with right := some (Int.ofNat x) }) >>=
          fun s6 =>
        s6.modifyNode z (fun nd => { nd with rank := 0 }) >>= fun s7 =>
        s7.modifyNode x (fun nd => { nd with rank := 0 }) >>= fun s8 =>
        s8.getNode x >>= fun xn3 =>
        s8.getNode z >>= fun zn3 =>
        subU xn3.nums zn3.nums >>= fun nm =>
        subU xn3.ones zn3.ones >>= fun om =>
        s8.modifyNode x (fun nd => { nd with nums := nm, ones := om })) =
      Res.ok t) :
    okExcept t E ∧ ptrOk t ∧ t.nodes.length = s2.nodes.length ∧
      t.leafs.length = s2.leafs.length ∧
      (∀ w, waiting s2 w → waiting t w) := by
  obtain ⟨s3, h3, h⟩ := Res.bind_ok h
  obtain ⟨zn2, hzn2, h⟩ := Res.bind_ok h
  obtain ⟨s4, h4, h⟩ := Res.bind_ok h
  obtain ⟨xn2, hxn2, h⟩ := Res.bind_ok h
  obtain ⟨r, hr, h⟩ := Res.bind_ok h
  obtain ⟨k3A, k3P, k3L, k3F, k3W⟩ :=
    keep_step_all (fun i => E i ∨ i = z ∨ i = x) h3 (fun nd => ⟨rfl, rfl, rfl⟩)
  obtain ⟨g4ne, ⟨nd4, hnd4, hg4⟩, g4L, g4F⟩ := modifyNode_get h4
  have hA4 : okExcept s4 (fun i => E i ∨ i = z ∨ i = x) :=
    okExcept_step_exempt h4 (Or.inr (Or.inr rfl)) (k3A hA)
  have hP4 : ptrOk s4 :=
    ptrOk_step h4 (fun nd hg =>
      ⟨(k3P hP z zn2 (getNode_ok hzn2)).2, (k3P hP x nd hg).2⟩) (k3P hP)
  have hxlen4 : x < s4.nodes.length := by
    rw [g4L]
    exact (List.get?_eq_some.mp hnd4).1
  have hxg := getNode_ok hxn2
  rw [hg4] at hxg
  have hx2 : xn2.left = zn2.right := by
    cases Option.some_inj.mp hxg
    rfl
  have hright : zn2.right = some r := hx2 ▸ unwrapO_ok hr
  have hdead : waiting s2 z → False := by
    intro hw
    have hzn := ((k3W z hw) zn2 (getNode_ok hzn2)).1
    rw [hzn] at hright
    exact Option.noConfusion hright
  split at h
  · obtain ⟨s5, h5, h⟩ := Res.bind_ok h
    obtain ⟨kA, kP, kL, kF, kW⟩ :=
      keep_step_all (fun i => E i ∨ i = z ∨ i = x) h5
        (fun nd => ⟨rfl, rfl, rfl⟩)
    obtain ⟨cA, cP, cL, cF, cW⟩ := rotR_core (kA hA4) (kP hP4)
      (by rw [kL]; exact hxlen4) h
    refine ⟨cA, cP, by rw [cL, kL, g4L, k3L], by rw [cF, kF, g4F, k3F], ?_⟩
    intro w hw
    by_cases hwz : w = z
    · subst hwz
      exact absurd hw hdead
    · exact cW w hwz (kW w (waiting_step h4 (fun nd hp => hp) (k3W w hw)))
  · obtain ⟨s5, h5, h⟩ := Res.bind_ok h
    obtain ⟨hn5, hf5⟩ := modifyLeaf_same h5
    obtain ⟨cA, cP, cL, cF, cW⟩ := rotR_core (okExcept_transport hn5 hA4)
      (ptrOk_transport hn5 hP4) (by rw [hn5]; exact hxlen4) h
    refine ⟨cA, cP, by rw [cL, hn5, g4L, k3L], by rw [cF, hf5, g4F, k3F], ?_⟩
    intro w hw
    by_cases hwz : w = z
    · subst hwz
      exact absurd hw hdead
    · exact cW w hwz (waiting_transport hn5
        (waiting_step h4 (fun nd hp => hp) (k3W w hw)))

theorem rotateRight_facts {s t : DynamicBitVector} {z x : Nat} {E : Nat → Prop}
    (hA : okExcept s (fun i => E i ∨ i = z ∨ i = x)) (hP : ptrOk s)
    (h : DynamicBitVector.rotateRight s z x = Res.ok t) :
    okExcept t E ∧ ptrOk t ∧ t.nodes.length = s.nodes.length ∧
      t.leafs.length = s.leafs.length ∧
      (∀ w, waiting s w → waiting t w) := by
  unfold DynamicBitVector.rotateRight at h
  obtain ⟨xn, hxn, h⟩ := Res.bind_ok h
  obtain ⟨s1, h1, h⟩ := Res.bind_ok h
  obtain ⟨zn, hzn, h⟩ := Res.bind_ok h
  simp only [] at h
  obtain ⟨k1A, k1P, k1L, k1F, k1W⟩ :=
    keep_step_all (fun i => E i ∨ i = z ∨ i = x) h1 (fun nd => ⟨rfl, rfl, rfl⟩)
  obtain ⟨_, ⟨nd1, hnd1, _⟩, _, _⟩ := modifyNode_get h1
  have hzlen : z < s.nodes.length := (List.get?_eq_some.mp hnd1).1
  split at h
  · obtain ⟨s2, h2, h⟩ := Res.bind_ok h
    obtain ⟨_, _, bL, bF⟩ := replaceChild_get h2
    have hb : (0 : Int) ≤ Int.ofNat z →
        (Int.ofNat z).toNat < s1.nodes.length := by
      intro _
      show z < s1.nodes.length
      rw [k1L]
      exact hzlen
    obtain ⟨tA, tP, tL, tF, tW⟩ := rotR_tail
      (okExcept_replaceChild h2 (k1A hA))
      (ptrOk_replaceChild h2 hb (k1P hP)) h
    refine ⟨tA, tP, by rw [tL, bL, k1L], by rw [tF, bF, k1F], ?_⟩
    intro w hw
    exact tW w (waiting_replaceChild h2 (k1W w hw))
  · obtain ⟨s2, h2, h⟩ := Res.bind_ok h
    cases Res.ok_inj h2
    have hn2 : ({ s1 with root := z } : DynamicBitVector).nodes = s1.nodes :=
      rfl
    obtain ⟨tA, tP, tL, tF, tW⟩ := rotR_tail
      (okExcept_transport hn2 (k1A hA)) (ptrOk_transport hn2 (k1P hP)) h
    have e1 : ({ s1 with root := z } : DynamicBitVector).nodes.length =
        s.nodes.length := by
      show s1.nodes.length = s.nodes.length
      rw [k1L]
    have e2 : ({ s1 with root := z } : DynamicBitVector).leafs.length =
        s.leafs.length := by
      show s1.leafs.length = s.leafs.length
      rw [k1F]
    refine ⟨tA, tP, tL.trans e1, tF.trans e2, ?_⟩
    intro w hw
    exact tW w (waiting_transport hn2 (k1W w hw))

/-! ### `rebalance` restores the balance invariant -/

theorem reb2 {s t : DynamicBitVector} {node parent : Nat}
    (hA : okExcept s (fun i => i = parent)) (hP : ptrOk s)
    (hdone : ranksOk s ∨
      (∀ pn, s.nodes.get? parent = some pn → pn.left = some (node : Int)))
    (h : (s.getNode parent >>= fun p2 =>
      match p2.left with
      | some l =>
        if l = (node : Int) then
          s.getNode node >>= fun nd =>
          if nd.rank ≤ 0 then DynamicBitVector.rotateRight s node parent
          else
            unwrapO nd.right >>= fun yI =>
            if yI < 0 then Res.fail Fail.died
            else
              DynamicBitVector.rotateLeft s yI.toNat node >>= fun s2 =>
              DynamicBitVector.rotateRight s2 yI.toNat parent
        else pure s
      | none => pure s) = Res.ok t) :
    ranksOk t ∧ ptrOk t ∧ t.nodes.length = s.nodes.length ∧
      t.leafs.length = s.leafs.length ∧
      (∀ w, waiting s w → waiting t w) := by
  obtain ⟨p2, hp2, h⟩ := Res.bind_ok h
  split at h
  · rename_i l hleft
    split at h
    · rename_i hln
      obtain ⟨nd, hnd, h⟩ := Res.bind_ok h
      split at h
      · obtain ⟨tA, tP, tL, tF, tW⟩ := rotateRight_facts
          (okExcept_mono (fun i hi => Or.inr (Or.inr hi)) hA) hP h
        exact ⟨ranksOk_of_okExcept (fun i hi => hi) tA, tP, tL, tF, tW⟩
      · rename_i hrank
        obtain ⟨yI, hyI, h⟩ := Res.bind_ok h
        split at h
        · exact Res.noConfusion h
        · obtain ⟨s2, h1, h⟩ := Res.bind_ok h
          obtain ⟨aA, aP, aL, aF, aW⟩ := rotateLeft_facts
            (okExcept_mono (fun i hi => Or.inl hi) hA) hP h1
          obtain ⟨bA, bP, bL, bF, bW⟩ := rotateRight_facts
            (okExcept_mono (fun i hi => Or.inr (Or.inr hi)) aA) aP h
          refine ⟨ranksOk_of_okExcept (fun i hi => hi) bA, bP,
            by rw [bL, aL], by rw [bF, aF], ?_⟩
          intro w hw
          by_cases hwn : w = node
          · subst hwn
            exact absurd ((hw nd (getNode_ok hnd)).2) hrank
          · exact bW w (aW w hwn hw)
    · rename_i hln
      cases Res.ok_inj h
      rcases hdone with hR | hcond
      · exact ⟨hR, hP, rfl, rfl, fun w hw => hw⟩
      · have hc := hcond p2 (getNode_ok hp2)
        rw [hleft] at hc
        exact absurd (Option.some_inj.mp hc) hln
  · rename_i hleft
    cases Res.ok_inj h
    rcases hdone with hR | hcond
    · exact ⟨hR, hP, rfl, rfl, fun w hw => hw⟩
    · have hc := hcond p2 (getNode_ok hp2)
      rw [hleft] at hc
      exact Option.noConfusion hc

theorem rebalance_facts {s t : DynamicBitVector} {node parent : Nat}
    (hA : okExcept s (fun i => i = parent)) (hP : ptrOk s)
    (hside : ∀ pn, s.nodes.get? parent = some pn →
      pn.right = some (node : Int) ∨ pn.left = some (node : Int))
    (h : DynamicBitVector.rebalance s node parent = Res.ok t) :
    ranksOk t ∧ ptrOk t ∧ t.nodes.length = s.nodes.length ∧
      t.leafs.length = s.leafs.length ∧
      (∀ w, waiting s w → waiting t w) := by
  unfold DynamicBitVector.rebalance at h
  obtain ⟨p, hp, h⟩ := Res.bind_ok h
  simp only [] at h
  split at h
  · rename_i r hright
    split at h
    · rename_i hrn
      obtain ⟨nd, hnd, h⟩ := Res.bind_ok h
      split at h
      · obtain ⟨s1, h1, h⟩ := Res.bind_ok h
        obtain ⟨aA, aP, aL, aF, aW⟩ := rotateLeft_facts
          (okExcept_mono (fun i hi => Or.inr (Or.inr hi)) hA) hP h1
        have hR1 : ranksOk s1 := ranksOk_of_okExcept (fun i hi => hi) aA
        obtain ⟨cR, cP, cL, cF, cW⟩ := reb2 (okExcept_of_ranksOk hR1) aP
          (Or.inl hR1) h
        refine ⟨cR, cP, by rw [cL, aL], by rw [cF, aF], ?_⟩
        intro w hw
        by_cases hwp : w = parent
        · subst hwp
          have hn := (hw p (getNode_ok hp)).1
          rw [hn] at hright
          exact Option.noConfusion hright
        · exact cW w (aW w hwp hw)
      · rename_i hrank
        obtain ⟨yI, hyI, h⟩ := Res.bind_ok h
        split at h
        · obtain ⟨a, ha, _⟩ := Res.bind_ok h
          exact Res.noConfusion ha
        · obtain ⟨s1, h1, h⟩ := Res.bind_ok h
          obtain ⟨s2, h2, h⟩ := Res.bind_ok h
          obtain ⟨aA, aP, aL, aF, aW⟩ := rotateRight_facts
            (okExcept_mono (fun i hi => Or.inl hi) hA) hP h1
          obtain ⟨bA, bP, bL, bF, bW⟩ := rotateLeft_facts
            (okExcept_mono (fun i hi => Or.inr (Or.inr hi)) aA) aP h2
          have hR2 : ranksOk s2 := ranksOk_of_okExcept (fun i hi => hi) bA
          obtain ⟨cR, cP, cL, cF, cW⟩ := reb2 (okExcept_of_ranksOk hR2) bP
            (Or.inl hR2) h
          refine ⟨cR, cP, by rw [cL, bL, aL], by rw [cF, bF, aF], ?_⟩
          intro w hw
          by_cases hwp : w = parent
          · subst hwp
            have hn := (hw p (getNode_ok hp)).1
            rw [hn] at hright
            exact Option.noConfusion hright
          · exact cW w (bW w hwp (aW w hw))
    · rename_i hrn
      obtain ⟨s1, h1, h⟩ := Res.bind_ok h
      cases Res.ok_inj h1
      have hdone : ranksOk s ∨ (∀ pn, s.nodes.get? parent = some pn →
          pn.left = some (node : Int)) := by
        refine Or.inr (fun pn hpn => ?_)
        rw [getNode_ok hp] at hpn
        cases Option.some_inj.mp hpn
        rcases hside p (getNode_ok hp) with hc | hc
        · rw [hright] at hc
          exact absurd (Option.some_inj.mp hc) hrn
        · exact hc
      exact reb2 hA hP hdone h
  · rename_i hright
    obtain ⟨s1, h1, h⟩ := Res.bind_ok h
    cases Res.ok_inj h1
    have hdone : ranksOk s ∨ (∀ pn, s.nodes.get? parent = some pn →
        pn.left = some (node : Int)) := by
      refine Or.inr (fun pn hpn => ?_)
      rw [getNode_ok hp] at hpn
      cases Option.some_inj.mp hpn
      rcases hside p (getNode_ok hp) with hc | hc
      · rw [hright] at hc
        exact Option.noConfusion hc
      · exact hc
    exact reb2 hA hP hdone h

/-! ### `retrace` with a height increase keeps the invariant -/

theorem getNodeSide_right {s : DynamicBitVector} {node p : Nat}
    (h : DynamicBitVector.getNodeSide s node = Res.ok (some (Side.right p))) :
    ∃ pn, s.nodes.get? p = some pn ∧ pn.right = some (node : Int) ∧
      ¬ pn.left = some (node : Int) := by
  unfold DynamicBitVector.getNodeSide at h
  obtain ⟨c, hc, h⟩ := Res.bind_ok h
  split at h
  · rename_i par hpar
    obtain ⟨pn, hpn, h⟩ := Res.bind_ok h
    split at h
    · exact Side.noConfusion (Option.some_inj.mp (Res.ok_inj h))
    · rename_i hL
      split at h
      · rename_i hRt
        have hpar2 := Option.some_inj.mp (Res.ok_inj h)
        injection hpar2 with hpe
        subst hpe
        exact ⟨pn, getNode_ok hpn, hRt, hL⟩
      · exact Option.noConfusion (Res.ok_inj h)
  · exact Option.noConfusion (Res.ok_inj h)

theorem getNodeSide_left {s : DynamicBitVector} {node p : Nat}
    (h : DynamicBitVector.getNodeSide s node = Res.ok (some (Side.left p))) :
    ∃ pn, s.nodes.get? p = some pn ∧ pn.left = some (node : Int) := by
  unfold DynamicBitVector.getNodeSide at h
  obtain ⟨c, hc, h⟩ := Res.bind_ok h
  split at h
  · rename_i par hpar
    obtain ⟨pn, hpn, h⟩ := Res.bind_ok h
    split at h
    · rename_i hL
      have hpar2 := Option.some_inj.mp (Res.ok_inj h)
      injection hpar2 with hpe
      subst hpe
      exact ⟨pn, getNode_ok hpn, hL⟩
    · split at h
      · exact Side.noConfusion (Option.some_inj.mp (Res.ok_inj h))
      · exact Option.noConfusion (Res.ok_inj h)
  · exact Option.noConfusion (Res.ok_inj h)

theorem retrace_succ (n : Nat) (s : DynamicBitVector) (node : Nat) (d : Int) :
    DynamicBitVector.retrace (n + 1) s node d = (do
      let nd ← s.getNode node
      if nd.rank = 0 then pure s
      else do
        let side ← DynamicBitVector.getNodeSide s node
        match side with
        | some (.right p) => do
            let s2 ← s.modifyNode p (fun nd => { nd with rank := nd.rank + d })
            let pn ← s2.getNode p
            if pn.rank.natAbs = 2 then DynamicBitVector.rebalance s2 node p
            else DynamicBitVector.retrace n s2 p d
        | some (.left p) => do
            let s2 ← s.modifyNode p (fun nd => { nd with rank := nd.rank - d })
            let pn ← s2.getNode p
            if pn.rank.natAbs = 2 then DynamicBitVector.rebalance s2 node p
            else DynamicBitVector.retrace n s2 p d
        | none => pure s) := rfl

theorem retrace_facts : ∀ (fuel : Nat) {s : DynamicBitVector} {node : Nat}
    {t : DynamicBitVector}, ranksOk s → ptrOk s →
    DynamicBitVector.retrace fuel s node 1 = Res.ok t →
    ranksOk t ∧ ptrOk t ∧ t.nodes.length = s.nodes.length ∧
      t.leafs.length = s.leafs.length ∧
      (∀ w, waiting s w → waiting t w) := by
  intro fuel
  induction fuel with
  | zero =>
    intro s node t _ _ h
    exact Res.noConfusion h
  | succ n ih =>
    intro s node t hR hP h
    rw [retrace_succ] at h
    obtain ⟨nd, hnd, h⟩ := Res.bind_ok h
    split at h
    · cases Res.ok_inj h
      exact ⟨hR, hP, rfl, rfl, fun w hw => hw⟩
    · obtain ⟨side, hside, h⟩ := Res.bind_ok h
      split at h
      · -- right child of p: rank += 1
        rename_i p
        obtain ⟨pnR, hpnR, hRt, hLn⟩ := getNodeSide_right hside
        obtain ⟨s2, h2, h⟩ := Res.bind_ok h
        obtain ⟨g2ne, ⟨m0, hm0, hat⟩, g2L, g2F⟩ := modifyNode_get h2
        rw [hpnR] at hm0
        cases Option.some_inj.mp hm0
        obtain ⟨pn2, hpn2, h⟩ := Res.bind_ok h
        have hpn2g := getNode_ok hpn2
        rw [hat] at hpn2g
        have hpn2e := Option.some_inj.mp hpn2g
        have hA2 : okExcept s2 (fun i => i = p) := by
          intro j m hm hj
          rw [g2ne j hj] at hm
          exact hR j m hm
        have hP2 : ptrOk s2 := ptrOk_step h2 (fun m hg => hP p m hg) hP
        have hW2 : ∀ w, waiting s w → waiting s2 w := by
          intro w hw
          by_cases hwp : w = p
          · subst hwp
            have hn := (hw pnR hpnR).1
            rw [hn] at hRt
            exact Option.noConfusion hRt
          · exact waiting_step_ne h2 hwp hw
        split at h
        · -- rebalance
          rename_i hnat
          have hside2 : ∀ pn, s2.nodes.get? p = some pn →
              pn.right = some (node : Int) ∨ pn.left = some (node : Int) := by
            intro pn hpn
            rw [hat] at hpn
            cases Option.some_inj.mp hpn
            exact Or.inl hRt
          obtain ⟨cR, cP, cL, cF, cW⟩ := rebalance_facts hA2 hP2 hside2 h
          refine ⟨cR, cP, by rw [cL, g2L], by rw [cF, g2F], ?_⟩
          intro w hw
          exact cW w (hW2 w hw)
        · -- recurse with p
          rename_i hnat
          have hR2 : ranksOk s2 := by
            intro j m hm
            by_cases hjp : j = p
            · rw [hjp, hat] at hm
              cases Option.some_inj.mp hm
              obtain ⟨o1, o2, o3⟩ := hR p pnR hpnR
              refine ⟨?_, fun he => ?_, fun he => ?_⟩
              · show (pnR.rank + 1).natAbs ≤ 1
                have hx : pnR.rank.natAbs ≤ 1 := o1
                have hy : ¬ (pn2.rank.natAbs = 2) := hnat
                have hz : pnR.rank + 1 = pn2.rank := congrArg Node.rank hpn2e
                omega
              · exact absurd (show ({ pnR with rank := pnR.rank + 1 } :
                  Node).right = some (node : Int) from hRt) (by
                    rw [he]
                    intro hcon
                    exact Option.noConfusion hcon)
              · show 0 ≤ pnR.rank + 1
                have := o3 he
                omega
            · rw [g2ne j hjp] at hm
              exact hR j m hm
          obtain ⟨cR, cP, cL, cF, cW⟩ := ih hR2 hP2 h
          refine ⟨cR, cP, by rw [cL, g2L], by rw [cF, g2F], ?_⟩
          intro w hw
          exact cW w (hW2 w hw)
      · -- left child of p: rank -= 1
        rename_i p
        obtain ⟨pnL, hpnL, hLt⟩ := getNodeSide_left hside
        obtain ⟨s2, h2, h⟩ := Res.bind_ok h
        obtain ⟨g2ne, ⟨m0, hm0, hat⟩, g2L, g2F⟩ := modifyNode_get h2
        rw [hpnL] at hm0
        cases Option.some_inj.mp hm0
        obtain ⟨pn2, hpn2, h⟩ := Res.bind_ok h
        have hpn2g := getNode_ok hpn2
        rw [hat] at hpn2g
        have hpn2e := Option.some_inj.mp hpn2g
        have hA2 : okExcept s2 (fun i => i = p) := by
          intro j m hm hj
          rw [g2ne j hj] at hm
          exact hR j m hm
        have hP2 : ptrOk s2 := ptrOk_step h2 (fun m hg => hP p m hg) hP
        have hW2 : ∀ w, waiting s w → waiting s2 w := by
          intro w hw
          exact waiting_step h2 (fun m hp => ⟨hp.1, by
            have hq := hp.2
            show m.rank - 1 ≤ 0
            omega⟩) hw
        split at h
        · rename_i hnat
          have hside2 : ∀ pn, s2.nodes.get? p = some pn →
              pn.right = some (node : Int) ∨ pn.left = some (node : Int) := by
            intro pn hpn
            rw [hat] at hpn
            cases Option.some_inj.mp hpn
            exact Or.inr hLt
          obtain ⟨cR, cP, cL, cF, cW⟩ := rebalance_facts hA2 hP2 hside2 h
          refine ⟨cR, cP, by rw [cL, g2L], by rw [cF, g2F], ?_⟩
          intro w hw
          exact cW w (hW2 w hw)
        · rename_i hnat
          have hR2 : ranksOk s2 := by
            intro j m hm
            by_cases hjp : j = p
            · rw [hjp, hat] at hm
              cases Option.some_inj.mp hm
              obtain ⟨o1, o2, o3⟩ := hR p pnL hpnL
              refine ⟨?_, fun he => ?_, fun he => ?_⟩
              · show (pnL.rank - 1).natAbs ≤ 1
                have hx : pnL.rank.natAbs ≤ 1 := o1
                have hy : ¬ (pn2.rank.natAbs = 2) := hnat
                have hz : pnL.rank - 1 = pn2.rank := congrArg Node.rank hpn2e
                omega
              · show pnL.rank - 1 ≤ 0
                have := o2 he
                omega
              · exact absurd (show ({ pnL with rank := pnL.rank - 1 } :
                  Node).left = some (node : Int) from hLt) (by
                    rw [he]
                    intro hcon
                    exact Option.noConfusion hcon)
            · rw [g2ne j hjp] at hm
              exact hR j m hm
          obtain ⟨cR, cP, cL, cF, cW⟩ := ih hR2 hP2 h
          refine ⟨cR, cP, by rw [cL, g2L], by rw [cF, g2F], ?_⟩
          intro w hw
          exact cW w (hW2 w hw)
      · -- no parent side
        cases Res.ok_inj h
        exact ⟨hR, hP, rfl, rfl, fun w hw => hw⟩

/-! ### Leaf-creation and leaf-motion steps of the push/insert machinery -/

theorem createRightLeaf_facts {fuel : Nat} {s : DynamicBitVector}
    {node : Nat} {t : DynamicBitVector} {lid : Int}
    (hA : okExcept s (fun i => i = node))
    (hX : ∀ nd, s.nodes.get? node = some nd → nd.right = none ∧
      -2 ≤ nd.rank ∧ nd.rank ≤ 0 ∧ (nd.left = none → -1 ≤ nd.rank))
    (hP : ptrOk s) (hlen : 1 ≤ s.leafs.length)
    (h : DynamicBitVector.createRightLeaf fuel s node = Res.ok (t, lid)) :
    ranksOk t ∧ ptrOk t ∧ t.nodes.length = s.nodes.length ∧
      t.leafs.length = s.leafs.length + 1 ∧ lid = -(s.leafs.length : Int) ∧
      (∀ w, w ≠ node → waiting s w → waiting t w) := by
  unfold DynamicBitVector.createRightLeaf at h
  simp only [] at h
  obtain ⟨s1, h1, h⟩ := Res.bind_ok h
  obtain ⟨s2, h2, h⟩ := Res.bind_ok h
  have hpair := Res.ok_inj h
  injection hpair with e1 e2
  subst e1
  subst e2
  obtain ⟨g1ne, ⟨m0, hm0, hat⟩, g1L, g1F⟩ := modifyNode_get h1
  have hm0s : s.nodes.get? node = some m0 := hm0
  have hX0 := hX m0 hm0s
  have hR1 : ranksOk s1 := by
    intro j m hm
    by_cases hj : j = node
    · rw [hj, hat] at hm
      cases Option.some_inj.mp hm
      refine ⟨?_, fun he => ?_, fun he => ?_⟩
      · show (m0.rank + 1).natAbs ≤ 1
        have q1 := hX0.2.1
        have q2 := hX0.2.2.1
        omega
      · exact Option.noConfusion he
      · show (0 : Int) ≤ m0.rank + 1
        have q3 := hX0.2.2.2 he
        omega
    · rw [g1ne j hj] at hm
      exact hA j m hm hj
  have hP1 : ptrOk s1 := by
    refine ptrOk_step h1 (fun m hg => ⟨(hP node m hg).1, ?_⟩) hP
    intro k hk h0
    cases Option.some_inj.mp hk
    exfalso
    omega
  obtain ⟨cR, cP, cL, cF, cW⟩ := retrace_facts fuel hR1 hP1 h2
  have eN : ({ s with leafs := s.leafs ++ [Leaf.new node] } :
      DynamicBitVector).nodes.length = s.nodes.length := rfl
  have eF : ({ s with leafs := s.leafs ++ [Leaf.new node] } :
      DynamicBitVector).leafs.length = s.leafs.length + 1 := by
    show (s.leafs ++ [Leaf.new node]).length = s.leafs.length + 1
    simp [List.length_append]
  refine ⟨cR, cP, (cL.trans g1L).trans eN, ?_, rfl, ?_⟩
  · rw [cF, g1F]
    exact eF
  · intro w hwn hw
    exact cW w (waiting_step_ne h1 hwn hw)

theorem moveRightChildLeft_facts {s : DynamicBitVector} {node : Nat}
    {t : DynamicBitVector}
    (hR : ranksOk s) (hP : ptrOk s)
    (hl : ∀ nd, s.nodes.get? node = some nd → nd.left = none)
    (h : DynamicBitVector.moveRightChildLeft s node = Res.ok t) :
    okExcept t (fun i => i = node) ∧
      (∀ nd, t.nodes.get? node = some nd → nd.right = none ∧
        -2 ≤ nd.rank ∧ nd.rank ≤ 0 ∧ (nd.left = none → -1 ≤ nd.rank)) ∧
      ptrOk t ∧ t.nodes.length = s.nodes.length ∧
      t.leafs = s.leafs := by
  unfold DynamicBitVector.moveRightChildLeft at h
  obtain ⟨s1, h1, h⟩ := Res.bind_ok h
  obtain ⟨n2, hn2, h⟩ := Res.bind_ok h
  obtain ⟨leftId, hleft, h⟩ := Res.bind_ok h
  obtain ⟨lf, hlf, h2⟩ := Res.bind_ok h
  obtain ⟨g1ne, ⟨m0, hm0, hat⟩, g1L, g1F⟩ := modifyNode_get h1
  have hok0 := hR node m0 hm0
  have hl0 := hl m0 hm0
  have hr0 : (0 : Int) ≤ m0.rank := hok0.2.2 hl0
  obtain ⟨g2ne, ⟨m1, hm1, hat2⟩, g2L, g2F⟩ := modifyNode_get h2
  rw [hat] at hm1
  have hm1e := Option.some_inj.mp hm1
  refine ⟨?_, ?_, ?_, by rw [g2L, g1L], by rw [g2F, g1F]⟩
  · intro j m hm hj
    rw [g2ne j hj, g1ne j hj] at hm
    exact hR j m hm
  · intro nd hnd
    rw [hat2, ← hm1e] at hnd
    cases Option.some_inj.mp hnd
    refine ⟨rfl, ?_, ?_, fun he => ?_⟩
    · show (-2 : Int) ≤ m0.rank - 2
      omega
    · show m0.rank - 2 ≤ 0
      have q := hok0.1
      omega
    · show (-1 : Int) ≤ m0.rank - 2
      exfalso
      have hLv : m0.right = some leftId := by
        have := unwrapO_ok hleft
        have hn2e := getNode_ok hn2
        rw [hat] at hn2e
        cases Option.some_inj.mp hn2e
        exact this
      rw [hLv] at he
      exact Option.noConfusion he
  · have hP1 : ptrOk s1 := ptrOk_step h1
      (fun m hg => ⟨(hP node m hg).2, fun k hk _ => Option.noConfusion hk⟩) hP
    exact ptrOk_step h2 (fun m hg => hP1 node m hg) hP1

theorem get?_concat_cases {α : Type} {l : List α} {a : α} {j : Nat} {b : α}
    (h : (l ++ [a]).get? j = some b) :
    l.get? j = some b ∨ (j = l.length ∧ b = a) := by
  by_cases hj : j < l.length
  · rw [List.get?_append hj] at h
    exact Or.inl h
  · by_cases hj2 : j = l.length
    · subst hj2
      rw [List.get?_concat_length] at h
      exact Or.inr ⟨rfl, (Option.some_inj.mp h).symm⟩
    · exfalso
      have hlen : (l ++ [a]).length ≤ j := by
        rw [List.length_append]
        simp only [List.length_singleton]
        omega
      rw [List.get?_eq_none.mpr hlen] at h
      exact Option.noConfusion h

theorem childBound_mono {len len2 : Nat} {c : Option Int} (hle : len ≤ len2)
    (h : childBound len c) : childBound len2 c :=
  fun k hk h0 => Nat.lt_of_lt_of_le (h k hk h0) hle

theorem insertNodeCommon_facts {s : DynamicBitVector} {childId : Int}
    {parentId intId : Nat} {t : DynamicBitVector}
    (hneg : childId < 0)
    (hA : okExcept s (fun i => i = intId)) (hP : ptrOk s)
    (hright : ∀ nd, s.nodes.get? intId = some nd → nd.right = none)
    (h : DynamicBitVector.insertNodeCommon s childId parentId intId =
      Res.ok t) :
    ranksOk t ∧ ptrOk t ∧ t.nodes.length = s.nodes.length ∧
      t.leafs.length = s.leafs.length ∧ waiting t intId := by
  unfold DynamicBitVector.insertNodeCommon at h
  obtain ⟨s1, h1, h⟩ := Res.bind_ok h
  obtain ⟨s2, h2, h⟩ := Res.bind_ok h
  obtain ⟨s3, h3, h⟩ := Res.bind_ok h
  obtain ⟨cl2, hcl2, h⟩ := Res.bind_ok h
  obtain ⟨s4, h4, h⟩ := Res.bind_ok h
  obtain ⟨hn1, hf1⟩ := modifyLeaf_same h1
  obtain ⟨g2ne, ⟨m2, hm2, hat2⟩, g2L, g2F⟩ := modifyNode_get h2
  obtain ⟨g3ne, ⟨m3, hm3, hat3⟩, g3L, g3F⟩ := modifyNode_get h3
  obtain ⟨g4ne, ⟨m4, hm4, hat4⟩, g4L, g4F⟩ := modifyNode_get h4
  obtain ⟨g5ne, ⟨m5, hm5, hat5⟩, g5L, g5F⟩ := modifyNode_get h
  rw [hat2] at hm3
  have e3 := Option.some_inj.mp hm3
  rw [hat3, ← e3] at hm4
  have e4 := Option.some_inj.mp hm4
  rw [hat4, ← e4] at hm5
  have e5 := Option.some_inj.mp hm5
  have hm2s : s.nodes.get? intId = some m2 := by
    rw [← hn1]
    exact hm2
  have hr2 : m2.right = none := hright m2 hm2s
  have hfin : ∀ nd, t.nodes.get? intId = some nd →
      nd.right = none ∧ nd.rank = -1 ∧ nd.left = some childId := by
    intro nd hnd
    rw [hat5, ← e5] at hnd
    cases Option.some_inj.mp hnd
    exact ⟨hr2, rfl, rfl⟩
  refine ⟨?_, ?_, by rw [g5L, g4L, g3L, g2L, hn1], ?_, ?_⟩
  · intro j m hm
    by_cases hj : j = intId
    · subst hj
      obtain ⟨q1, q2, q3⟩ := hfin m hm
      refine ⟨by rw [q2]; decide, fun _ => by rw [q2]; decide, fun he => ?_⟩
      · rw [q3] at he
        exact Option.noConfusion he
    · rw [g5ne j hj, g4ne j hj, g3ne j hj, g2ne j hj] at hm
      have hms : s.nodes.get? j = some m := by
        rw [← hn1]
        exact hm
      exact hA j m hms hj
  · have hP1 : ptrOk s1 := ptrOk_transport hn1 hP
    have hP2 : ptrOk s2 := ptrOk_step h2 (fun m hg => hP1 intId m hg) hP1
    have hP3 : ptrOk s3 := ptrOk_step h3 (fun m hg =>
      ⟨fun k hk h0 => by
          cases Option.some_inj.mp hk
          exfalso
          omega,
        (hP2 intId m hg).2⟩) hP2
    have hP4 : ptrOk s4 := ptrOk_step h4 (fun m hg => hP3 intId m hg) hP3
    exact ptrOk_step h (fun m hg => hP4 intId m hg) hP4
  · rw [g5F, g4F, g3F, g2F, hf1]
  · intro nd hnd
    obtain ⟨q1, q2, _⟩ := hfin nd hnd
    rw [q1, q2]
    exact ⟨rfl, by decide⟩

theorem insertIntermediaryNode_facts {s : DynamicBitVector} {childId : Int}
    {nid : Nat} {t : DynamicBitVector}
    (hneg : childId < 0)
    (hA : okExcept s (fun i => i = nid)) (hP : ptrOk s)
    (hfresh : ∀ nd, s.nodes.get? nid = some nd →
      nd.left = none ∧ nd.right = none)
    (hbound : nid < s.nodes.length)
    (h : DynamicBitVector.insertIntermediaryNode s childId nid = Res.ok t) :
    ranksOk t ∧ ptrOk t ∧ t.nodes.length = s.nodes.length ∧
      t.leafs.length = s.leafs.length ∧ waiting t nid ∧
      2 ≤ s.leafs.length := by
  unfold DynamicBitVector.insertIntermediaryNode at h
  simp only [] at h
  obtain ⟨cl, hcl, h⟩ := Res.bind_ok h
  obtain ⟨p, hp, h⟩ := Res.bind_ok h
  have hcllen : childId.natAbs < s.leafs.length :=
    (List.get?_eq_some.mp (getLeaf_ok hcl)).1
  have hlf2 : 2 ≤ s.leafs.length := by omega
  split at h
  · rename_i hcond
    have hne : cl.parent ≠ nid := by
      intro he
      rw [he] at hp
      have := (hfresh p (getNode_ok hp)).1
      rw [this] at hcond
      exact Option.noConfusion hcond
    obtain ⟨s1, h1, h⟩ := Res.bind_ok h
    obtain ⟨g1ne, ⟨m1, hm1, hat1⟩, g1L, g1F⟩ := modifyNode_get h1
    have hA1 : okExcept s1 (fun i => i = nid) :=
      okExcept_step h1 (fun nd hok => nodeOk_setLeft hok) hA
    have hP1 : ptrOk s1 := ptrOk_step h1 (fun m hg =>
      ⟨fun k hk h0 => by
          cases Option.some_inj.mp hk
          exact hbound,
        (hP cl.parent m hg).2⟩) hP
    have hfresh1 : ∀ nd, s1.nodes.get? nid = some nd → nd.right = none := by
      intro nd hnd
      rw [g1ne nid (fun he => hne he.symm)] at hnd
      exact (hfresh nd hnd).2
    obtain ⟨cR, cP, cL, cF, cW⟩ :=
      insertNodeCommon_facts hneg hA1 hP1 hfresh1 h
    exact ⟨cR, cP, by rw [cL, g1L], by rw [cF, g1F], cW, hlf2⟩
  · split at h
    · rename_i hc1 hcond
      have hne : cl.parent ≠ nid := by
        intro he
        rw [he] at hp
        have := (hfresh p (getNode_ok hp)).2
        rw [this] at hcond
        exact Option.noConfusion hcond
      obtain ⟨s1, h1, h⟩ := Res.bind_ok h
      obtain ⟨g1ne, ⟨m1, hm1, hat1⟩, g1L, g1F⟩ := modifyNode_get h1
      have hA1 : okExcept s1 (fun i => i = nid) :=
        okExcept_step h1 (fun nd hok => nodeOk_setRight hok) hA
      have hP1 : ptrOk s1 := ptrOk_step h1 (fun m hg =>
        ⟨(hP cl.parent m hg).1,
          fun k hk h0 => by
            cases Option.some_inj.mp hk
            exact hbound⟩) hP
      have hfresh1 : ∀ nd, s1.nodes.get? nid = some nd → nd.right = none := by
        intro nd hnd
        rw [g1ne nid (fun he => hne he.symm)] at hnd
        exact (hfresh nd hnd).2
      obtain ⟨cR, cP, cL, cF, cW⟩ :=
        insertNodeCommon_facts hneg hA1 hP1 hfresh1 h
      exact ⟨cR, cP, by rw [cL, g1L], by rw [cF, g1F], cW, hlf2⟩
    · exact Res.noConfusion h

theorem insertNodeAtLeaf_facts {s : DynamicBitVector} {leaf : Int}
    {t : DynamicBitVector} {nid : Nat}
    (hI : Inv s) (hneg : leaf < 0)
    (h : DynamicBitVector.insertNodeAtLeaf s leaf = Res.ok (t, nid)) :
    ranksOk t ∧ ptrOk t ∧ t.nodes.length = s.nodes.length + 1 ∧
      t.leafs.length = s.leafs.length ∧ waiting t nid ∧
      2 ≤ s.leafs.length ∧ nid = s.nodes.length := by
  obtain ⟨hR, hP, hle, hstrict⟩ := hI
  unfold DynamicBitVector.insertNodeAtLeaf at h
  simp only [] at h
  obtain ⟨s1, h1, h⟩ := Res.bind_ok h
  have hpair := Res.ok_inj h
  injection hpair with e1 e2
  subst e1
  subst e2
  have hSlen : ({ s with nodes := s.nodes ++ [Node.new] } :
      DynamicBitVector).nodes.length = s.nodes.length + 1 := by
    show (s.nodes ++ [Node.new]).length = s.nodes.length + 1
    rw [List.length_append]
    rfl
  have hA : okExcept { s with nodes := s.nodes ++ [Node.new] }
      (fun i => i = s.nodes.length) := by
    intro j m hm hj
    rcases get?_concat_cases hm with hm2 | ⟨he, rfl⟩
    · exact hR j m hm2
    · exact ⟨by decide, fun _ => by decide, fun _ => by decide⟩
  have hPS : ptrOk { s with nodes := s.nodes ++ [Node.new] } := by
    intro j m hm
    rw [hSlen]
    rcases get?_concat_cases hm with hm2 | ⟨he, rfl⟩
    · exact ⟨childBound_mono (Nat.le_succ _) (hP j m hm2).1,
        childBound_mono (Nat.le_succ _) (hP j m hm2).2⟩
    · exact ⟨fun k hk _ => Option.noConfusion hk,
        fun k hk _ => Option.noConfusion hk⟩
  have hfresh : ∀ nd, ({ s with nodes := s.nodes ++ [Node.new] } :
      DynamicBitVector).nodes.get? s.nodes.length = some nd →
      nd.left = none ∧ nd.right = none := by
    intro nd hnd
    have : (s.nodes ++ [Node.new]).get? s.nodes.length = some Node.new :=
      List.get?_concat_length _ _
    rw [this] at hnd
    cases Option.some_inj.mp hnd
    exact ⟨rfl, rfl⟩
  have hbound : s.nodes.length < ({ s with nodes := s.nodes ++ [Node.new] } :
      DynamicBitVector).nodes.length := by
    rw [hSlen]
    omega
  obtain ⟨cR, cP, cL, cF, cW, c2⟩ :=
    insertIntermediaryNode_facts hneg hA hPS hfresh hbound h1
  exact ⟨cR, cP, by rw [cL, hSlen], cF, cW, c2, rfl⟩

/-! ### The push recursion preserves the invariant -/

theorem pushGo_inl (n : Nat) (s : DynamicBitVector) (node : Nat)
    (bit : Bool) :
    DynamicBitVector.pushGo (n + 1) (Sum.inl (s, node, bit)) = (do
      let nd ← s.getNode node
      match nd.right with
      | some r =>
        if 0 ≤ r then DynamicBitVector.pushGo n (Sum.inl (s, r.toNat, bit))
        else DynamicBitVector.pushGo n (Sum.inr (s, r, bit))
      | none => do
        let p ← DynamicBitVector.createRightLeaf n s node
        DynamicBitVector.pushGo n (Sum.inl (p.1, node, bit))) := rfl

theorem pushGo_inr (n : Nat) (s : DynamicBitVector) (leaf : Int)
    (bit : Bool) :
    DynamicBitVector.pushGo (n + 1) (Sum.inr (s, leaf, bit)) = (do
      let l ← s.getLeaf leaf
      match l.push bit with
      | .ok l2 => s.modifyLeaf leaf (fun _ => l2)
      | .fail .died => .fail .died
      | .fail .rerr => do
        let node := l.parent
        let nd ← s.getNode node
        if nd.left.isSome then do
          let p ← DynamicBitVector.insertNodeAtLeaf s leaf
          let s2 ← DynamicBitVector.retrace n p.1 p.2 1
          DynamicBitVector.pushGo n (Sum.inl (s2, p.2, bit))
        else do
          let s2 ← DynamicBitVector.moveRightChildLeft s node
          DynamicBitVector.pushGo n (Sum.inl (s2, node, bit))) := rfl

theorem pushGo_facts : ∀ (fuel : Nat)
    (arg : (DynamicBitVector × Nat × Bool) ⊕ (DynamicBitVector × Int × Bool))
    {t : DynamicBitVector}, pushPre arg →
    DynamicBitVector.pushGo fuel arg = Res.ok t → Inv t := by
  intro fuel
  induction fuel with
  | zero =>
    intro arg t hpre h
    exact Res.noConfusion h
  | succ n ih =>
    intro arg t hpre h
    rcases arg with ⟨s, node, bit⟩ | ⟨s, leaf, bit⟩
    · have hpre2 : Inv s ∨ excCreate s node := hpre
      rw [pushGo_inl] at h
      obtain ⟨nd, hnd, h⟩ := Res.bind_ok h
      split at h
      · rename_i r hr
        have hInv : Inv s := by
          rcases hpre2 with hI | hE
          · exact hI
          · exfalso
            have hn := (hE.2.1 nd (getNode_ok hnd)).1
            rw [hn] at hr
            exact Option.noConfusion hr
        split at h
        · exact ih (Sum.inl (s, r.toNat, bit)) (Or.inl hInv) h
        · rename_i hge
          exact ih (Sum.inr (s, r, bit)) ⟨hInv, by omega⟩ h
      · rename_i hr
        obtain ⟨p, hp, h⟩ := Res.bind_ok h
        rcases p with ⟨s2, lid⟩
        have hnode : node < s.nodes.length :=
          (List.get?_eq_some.mp (getNode_ok hnd)).1
        have hfacts : okExcept s (fun i => i = node) ∧
            (∀ m, s.nodes.get? node = some m → m.right = none ∧
              -2 ≤ m.rank ∧ m.rank ≤ 0 ∧ (m.left = none → -1 ≤ m.rank)) ∧
            ptrOk s ∧ 1 ≤ s.leafs.length ∧
            s.nodes.length ≤ s.leafs.length := by
          rcases hpre2 with hI | hE
          · refine ⟨okExcept_of_ranksOk hI.1, fun m hg => ?_, hI.2.1, ?_, ?_⟩
            · rw [getNode_ok hnd] at hg
              cases Option.some_inj.mp hg
              obtain ⟨o1, o2, o3⟩ := hI.1 node nd (getNode_ok hnd)
              have hr2 := o2 hr
              refine ⟨hr, by omega, hr2, fun he => ?_⟩
              have := o3 he
              omega
            · have := hI.2.2.1
              omega
            · exact hI.2.2.1
          · refine ⟨hE.1, hE.2.1, hE.2.2.1, ?_, hE.2.2.2.1⟩
            have := hE.2.2.2.2
            omega
        obtain ⟨cR, cP, cL, cF, clid, cW⟩ := createRightLeaf_facts
          hfacts.1 hfacts.2.1 hfacts.2.2.1 hfacts.2.2.2.1 hp
        have hI2 : Inv s2 := by
          refine ⟨cR, cP, ?_, fun _ => ?_⟩
          · rw [cL, cF]
            have := hfacts.2.2.2.2
            omega
          · rw [cL, cF]
            have := hfacts.2.2.2.2
            omega
        exact ih (Sum.inl (s2, node, bit)) (Or.inl hI2) h
    · have hpre2 : Inv s ∧ leaf < 0 := hpre
      rw [pushGo_inr] at h
      obtain ⟨l, hlf, h⟩ := Res.bind_ok h
      have hlf2 : 2 ≤ s.leafs.length := by
        have h1 := (List.get?_eq_some.mp (getLeaf_ok hlf)).1
        have h2 := hpre2.2
        omega
      split at h
      · rename_i l2 hpush
        obtain ⟨lf0, hg, rfl⟩ := modifyLeaf_ok h
        have hn : ({ s with leafs := s.leafs.set leaf.natAbs l2 } :
            DynamicBitVector).nodes = s.nodes := rfl
        have hlen2 : ({ s with leafs := s.leafs.set leaf.natAbs l2 } :
            DynamicBitVector).leafs.length = s.leafs.length := by
          show (s.leafs.set leaf.natAbs l2).length = s.leafs.length
          exact List.length_set _ _ _
        exact inv_transport hn hlen2 hpre2.1
      · exact Res.noConfusion h
      · obtain ⟨nd, hnd, h⟩ := Res.bind_ok h
        split at h
        · obtain ⟨p, hp, h⟩ := Res.bind_ok h
          rcases p with ⟨s2, nid⟩
          obtain ⟨aR, aP, aL, aF, aW, a2, anid⟩ :=
            insertNodeAtLeaf_facts hpre2.1 hpre2.2 hp
          obtain ⟨s3, h3, h⟩ := Res.bind_ok h
          obtain ⟨bR, bP, bL, bF, bW⟩ := retrace_facts n aR aP h3
          have hwait3 : waiting s3 nid := bW nid aW
          have hexc : excCreate s3 nid := by
            refine ⟨fun i m hm _ => bR i m hm, fun m hm => ?_, bP, ?_, ?_⟩
            · have hw := hwait3 m hm
              have hok := bR nid m hm
              have ho1 := hok.1
              refine ⟨hw.1, by omega, hw.2, fun _ => by omega⟩
            · rw [bL, aL, bF, aF]
              have := hpre2.1.2.2.2 hlf2
              omega
            · rw [bF, aF]
              exact hlf2
          exact ih (Sum.inl (s3, nid, bit)) (Or.inr hexc) h
        · rename_i hcond
          have hnone : nd.left = none := by
            cases hq : nd.left with
            | none => rfl
            | some v =>
              rw [hq] at hcond
              exact absurd rfl hcond
          obtain ⟨s2, h2, h⟩ := Res.bind_ok h
          obtain ⟨mA, mX, mP, mL, mF⟩ := moveRightChildLeft_facts
            hpre2.1.1 hpre2.1.2.1 (fun m hg => by
              rw [getNode_ok hnd] at hg
              cases Option.some_inj.mp hg
              exact hnone) h2
          have hexc : excCreate s2 l.parent := by
            refine ⟨mA, mX, mP, ?_, ?_⟩
            · rw [mL, mF]
              exact hpre2.1.2.2.1
            · rw [mF]
              exact hlf2
          exact ih (Sum.inl (s2, l.parent, bit)) (Or.inr hexc) h

theorem push_facts {s t : DynamicBitVector} {bit : Bool} (hI : Inv s)
    (h : DynamicBitVector.push s bit = Res.ok t) : Inv t :=
  pushGo_facts DynamicBitVector.FUEL (Sum.inl (s, s.root, bit))
    (Or.inl hI) h

/-! ### The insert recursion preserves the invariant -/

theorem modifyLeaf_get {s : DynamicBitVector} {i : Int} {f : Leaf → Leaf}
    {t : DynamicBitVector} (h : s.modifyLeaf i f = Res.ok t) :
    (∀ j, j ≠ i.natAbs → t.leafs.get? j = s.leafs.get? j) ∧
      (∃ lf, s.leafs.get? i.natAbs = some lf ∧
        t.leafs.get? i.natAbs = some (f lf)) ∧
      t.nodes = s.nodes ∧ t.leafs.length = s.leafs.length := by
  obtain ⟨lf, hg, rfl⟩ := modifyLeaf_ok h
  have hlen : i.natAbs < s.leafs.length := (List.get?_eq_some.mp hg).1
  exact ⟨fun j hj => List.get?_set_ne _ _ (fun e => hj e.symm),
    ⟨lf, hg, List.get?_set_eq_of_lt _ hlen⟩, rfl, List.length_set _ _ _⟩

theorem splitLeaf_facts {fuel : Nat} {s : DynamicBitVector} {leaf : Int}
    {t : DynamicBitVector} {nid : Nat}
    (hI : Inv s) (hneg : leaf < 0)
    (h : DynamicBitVector.splitLeaf fuel s leaf = Res.ok (t, nid)) :
    Inv t := by
  unfold DynamicBitVector.splitLeaf at h
  simp only [] at h
  obtain ⟨p, hp, h⟩ := Res.bind_ok h
  rcases p with ⟨s1, nid1⟩
  obtain ⟨aR, aP, aL, aF, aW, a2, anid⟩ := insertNodeAtLeaf_facts hI hneg hp
  obtain ⟨s2, h2, h⟩ := Res.bind_ok h
  obtain ⟨bR, bP, bL, bF, bW⟩ := retrace_facts fuel aR aP h2
  obtain ⟨lf, hlfr, h⟩ := Res.bind_ok h
  obtain ⟨s3, h3, h⟩ := Res.bind_ok h
  obtain ⟨hn3, hf3⟩ := modifyLeaf_same h3
  obtain ⟨q, hq, h⟩ := Res.bind_ok h
  rcases q with ⟨s4, lid⟩
  have hwait : waiting s3 nid1 := waiting_transport hn3 (bW nid1 aW)
  have hR3 : ranksOk s3 := fun i m hm => bR i m (hn3 ▸ hm)
  have hP3 : ptrOk s3 := ptrOk_transport hn3 bP
  have hX : ∀ m, s3.nodes.get? nid1 = some m → m.right = none ∧
      -2 ≤ m.rank ∧ m.rank ≤ 0 ∧ (m.left = none → -1 ≤ m.rank) := by
    intro m hm
    have hw := hwait m hm
    have ho := (hR3 nid1 m hm).1
    exact ⟨hw.1, by omega, hw.2, fun _ => by omega⟩
  have hlen3 : 1 ≤ s3.leafs.length := by
    rw [hf3, bF, aF]
    omega
  obtain ⟨cR, cP, cL, cF, clid, cW⟩ := createRightLeaf_facts
    (okExcept_of_ranksOk hR3) hX hP3 hlen3 hq
  obtain ⟨s5, h5, h⟩ := Res.bind_ok h
  obtain ⟨hn5, hf5⟩ := modifyLeaf_same h5
  obtain ⟨s6, h6, h⟩ := Res.bind_ok h
  obtain ⟨hn6, hf6⟩ := modifyLeaf_same h6
  obtain ⟨r, hr, h⟩ := Res.bind_ok h
  rcases r with ⟨s7, b7⟩
  obtain ⟨uL, uF, uR, uP, uW⟩ := updateLeftValuesOnly_facts hr
  have hpair := Res.ok_inj h
  injection hpair with e1 e2
  subst e1
  subst e2
  have hR6 : ranksOk s6 := by
    intro i m hm
    rw [hn6, hn5] at hm
    exact cR i m hm
  have hP6 : ptrOk s6 := ptrOk_transport hn6 (ptrOk_transport hn5 cP)
  have eN : s7.nodes.length = s.nodes.length + 1 := by
    rw [uL, hn6, hn5, cL, hn3, bL, aL]
  have eL : s7.leafs.length = s.leafs.length + 1 := by
    rw [show s7.leafs = s6.leafs from uF, hf6, hf5, cF, hf3, bF, aF]
  refine ⟨uR hR6, uP hP6, ?_, fun _ => ?_⟩
  · rw [eN, eL]
    have := hI.2.2.1
    omega
  · rw [eN, eL]
    have := hI.2.2.2 a2
    omega

theorem insertGo_inl (n : Nat) (s : DynamicBitVector) (node index : Nat)
    (bit : Bool) :
    DynamicBitVector.insertGo (n + 1) (Sum.inl (s, node, index, bit)) = (do
      let nd ← s.getNode node
      if nd.nums ≤ index then
        match nd.right with
        | some rightId =>
          if 0 ≤ rightId then
            DynamicBitVector.insertGo n
              (Sum.inl (s, rightId.toNat, index - nd.nums, bit))
          else
            DynamicBitVector.insertGo n
              (Sum.inr (s, rightId, index - nd.nums, bit))
        | none => do
          let p ← DynamicBitVector.createRightLeaf n s node
          let n2 ← p.1.getNode node
          let d ← subU index n2.nums
          DynamicBitVector.insertGo n (Sum.inr (p.1, p.2, d, bit))
      else do
        let leftId ← unwrapO nd.left
        let s2 ← s.modifyNode node (fun m =>
          { m with nums := m.nums + 1,
                   ones := m.ones + (if bit then 1 else 0) })
        if 0 ≤ leftId then
          DynamicBitVector.insertGo n (Sum.inl (s2, leftId.toNat, index, bit))
        else
          DynamicBitVector.insertGo n (Sum.inr (s2, leftId, index, bit))) :=
  rfl

theorem insertGo_inr (n : Nat) (s : DynamicBitVector) (leaf : Int)
    (index : Nat) (bit : Bool) :
    DynamicBitVector.insertGo (n + 1) (Sum.inr (s, leaf, index, bit)) = (do
      let l ← s.getLeaf leaf
      if 64 ≤ l.nums then do
        let p ← s.getNode l.parent
        if p.left = none then do
          let s2 ← DynamicBitVector.moveRightChildLeft s l.parent
          let lf ← s2.getLeaf leaf
          let pr := lf.splitToRight
          let s3 ← s2.modifyLeaf leaf (fun _ => pr.1)
          let lf2 ← s3.getLeaf leaf
          let q ← DynamicBitVector.createRightLeaf n s3 lf2.parent
          let s4 ← q.1.modifyLeaf q.2 (fun x => { x with value := pr.2 })
          let s5 ← s4.modifyLeaf q.2 (fun x => { x with nums := 32 })
          let lf3 ← s5.getLeaf leaf
          let r ← DynamicBitVector.updateLeftValuesOnly n s5 lf3.parent leaf
          let s6 := r.1
          let lf4 ← s6.getLeaf leaf
          DynamicBitVector.insertGo n (Sum.inl (s6, lf4.parent, index, bit))
        else do
          let q ← DynamicBitVector.splitLeaf n s leaf
          DynamicBitVector.insertGo n (Sum.inl (q.1, q.2, index, bit))
      else do
        let l2 ← l.insert index bit
        s.modifyLeaf leaf (fun _ => l2)) := rfl

theorem insertGo_facts : ∀ (fuel : Nat)
    (arg : (DynamicBitVector × Nat × Nat × Bool) ⊕
      (DynamicBitVector × Int × Nat × Bool)) {t : DynamicBitVector},
    insertPre arg → DynamicBitVector.insertGo fuel arg = Res.ok t →
    Inv t := by
  intro fuel
  induction fuel with
  | zero =>
    intro arg t hpre h
    exact Res.noConfusion h
  | succ n ih =>
    intro arg t hpre h
    rcases arg with ⟨s, node, index, bit⟩ | ⟨s, leaf, index, bit⟩
    · have hI : Inv s := hpre
      rw [insertGo_inl] at h
      obtain ⟨nd, hnd, h⟩ := Res.bind_ok h
      split at h
      · split at h
        · rename_i rid hr
          split at h
          · exact ih (Sum.inl (s, rid.toNat, index - nd.nums, bit)) hI h
          · rename_i hge
            exact ih (Sum.inr (s, rid, index - nd.nums, bit))
              ⟨hI, by omega⟩ h
        · rename_i hr
          obtain ⟨p, hp, h⟩ := Res.bind_ok h
          rcases p with ⟨s2, lid⟩
          have hfacts2 : ∀ m, s.nodes.get? node = some m → m.right = none ∧
              -2 ≤ m.rank ∧ m.rank ≤ 0 ∧ (m.left = none → -1 ≤ m.rank) := by
            intro m hg
            rw [getNode_ok hnd] at hg
            cases Option.some_inj.mp hg
            obtain ⟨o1, o2, o3⟩ := hI.1 node nd (getNode_ok hnd)
            have hr2 := o2 hr
            refine ⟨hr, by omega, hr2, fun he => ?_⟩
            have := o3 he
            omega
          have hlen1 : 1 ≤ s.leafs.length := by
            have hb := (List.get?_eq_some.mp (getNode_ok hnd)).1
            have := hI.2.2.1
            omega
          obtain ⟨cR, cP, cL, cF, clid, cW⟩ := createRightLeaf_facts
            (okExcept_of_ranksOk hI.1) hfacts2 hI.2.1 hlen1 hp
          have hI2 : Inv s2 := by
            refine ⟨cR, cP, ?_, fun _ => ?_⟩
            · rw [cL, cF]
              have := hI.2.2.1
              omega
            · rw [cL, cF]
              have := hI.2.2.1
              omega
          obtain ⟨n2, hn2, h⟩ := Res.bind_ok h
          obtain ⟨d, hd, h⟩ := Res.bind_ok h
          refine ih (Sum.inr (s2, lid, d, bit)) ⟨hI2, ?_⟩ h
          rw [clid]
          omega
      · obtain ⟨leftId, hleft, h⟩ := Res.bind_ok h
        obtain ⟨s2, h2, h⟩ := Res.bind_ok h
        obtain ⟨mk1, mk2, mk3, mk4, _, _, _⟩ :=
          modify_keep h2 (fun m => ⟨rfl, rfl, rfl⟩)
        have hI2 : Inv s2 := by
          refine ⟨mk3 hI.1, mk4 hI.2.1, ?_, ?_⟩
          · rw [mk1, mk2]
            exact hI.2.2.1
          · rw [mk1, mk2]
            exact hI.2.2.2
        split at h
        · exact ih (Sum.inl (s2, leftId.toNat, index, bit)) hI2 h
        · rename_i hge
          exact ih (Sum.inr (s2, leftId, index, bit)) ⟨hI2, by omega⟩ h
    · have hpre2 : Inv s ∧ leaf < 0 := hpre
      rw [insertGo_inr] at h
      obtain ⟨l, hl, h⟩ := Res.bind_ok h
      have h2len : 2 ≤ s.leafs.length := by
        have h1 := (List.get?_eq_some.mp (getLeaf_ok hl)).1
        have h2 := hpre2.2
        omega
      split at h
      · obtain ⟨p, hp, h⟩ := Res.bind_ok h
        split at h
        · rename_i hpl
          obtain ⟨s2, h2, h⟩ := Res.bind_ok h
          obtain ⟨mA, mX, mP, mL, mF⟩ := moveRightChildLeft_facts
            hpre2.1.1 hpre2.1.2.1 (fun m hg => by
              rw [getNode_ok hp] at hg
              cases Option.some_inj.mp hg
              exact hpl) h2
          obtain ⟨lf, hlfr, h⟩ := Res.bind_ok h
          have hlfl : lf = l := by
            have g1 := getLeaf_ok hlfr
            rw [mF, getLeaf_ok hl] at g1
            exact (Option.some_inj.mp g1).symm
          obtain ⟨s3, h3, h⟩ := Res.bind_ok h
          obtain ⟨g3ne, ⟨lf0, hg0, hat3⟩, hn3, hf3⟩ := modifyLeaf_get h3
          obtain ⟨lf2, hlf2, h⟩ := Res.bind_ok h
          have hlf2e : lf2 = lf.splitToRight.1 := by
            have g2 := getLeaf_ok hlf2
            rw [hat3] at g2
            exact (Option.some_inj.mp g2).symm
          have hpar : lf2.parent = l.parent := by
            rw [hlf2e]
            show lf.parent = l.parent
            rw [hlfl]
          have hA3 : okExcept s3 (fun i => i = lf2.parent) := by
            refine okExcept_mono (fun i hi => ?_)
              (okExcept_transport hn3 mA)
            rw [hpar]
            exact hi
          have hX3 : ∀ m, s3.nodes.get? lf2.parent = some m →
              m.right = none ∧ -2 ≤ m.rank ∧ m.rank ≤ 0 ∧
              (m.left = none → -1 ≤ m.rank) := by
            intro m hm
            rw [hpar, hn3] at hm
            exact mX m hm
          have hlen3 : 1 ≤ s3.leafs.length := by
            rw [hf3, mF]
            omega
          obtain ⟨q, hq, h⟩ := Res.bind_ok h
          rcases q with ⟨s4, lid⟩
          obtain ⟨cR, cP, cL, cF, clid, cW⟩ := createRightLeaf_facts hA3 hX3
            (ptrOk_transport hn3 mP) hlen3 hq
          obtain ⟨s5, h5, h⟩ := Res.bind_ok h
          obtain ⟨hn5, hf5⟩ := modifyLeaf_same h5
          obtain ⟨s6a, h6, h⟩ := Res.bind_ok h
          obtain ⟨hn6, hf6⟩ := modifyLeaf_same h6
          obtain ⟨lf3, hlf3, h⟩ := Res.bind_ok h
          obtain ⟨r, hr, h⟩ := Res.bind_ok h
          rcases r with ⟨s7, b7⟩
          obtain ⟨uL, uF, uR, uP, uW⟩ := updateLeftValuesOnly_facts hr
          obtain ⟨lf4, hlf4, h⟩ := Res.bind_ok h
          have hR6 : ranksOk s6a := by
            intro i m hm
            rw [hn6, hn5] at hm
            exact cR i m hm
          have hP6 : ptrOk s6a := ptrOk_transport hn6 (ptrOk_transport hn5 cP)
          have eN : s7.nodes.length = s.nodes.length := by
            rw [uL, hn6, hn5, cL, hn3, mL]
          have eL : s7.leafs.length = s.leafs.length + 1 := by
            rw [show s7.leafs = s6a.leafs from uF, hf6, hf5, cF, hf3, mF]
          have hI7 : Inv s7 := by
            refine ⟨uR hR6, uP hP6, ?_, fun _ => ?_⟩
            · rw [eN, eL]
              have := hpre2.1.2.2.1
              omega
            · rw [eN, eL]
              have := hpre2.1.2.2.1
              omega
          exact ih (Sum.inl (s7, lf4.parent, index, bit)) hI7 h
        · obtain ⟨q, hq, h⟩ := Res.bind_ok h
          rcases q with ⟨s2, nid⟩
          exact ih (Sum.inl (s2, nid, index, bit))
            (splitLeaf_facts hpre2.1 hpre2.2 hq) h
      · obtain ⟨l2, hl2, h⟩ := Res.bind_ok h
        obtain ⟨_, _, hn, hf⟩ := modifyLeaf_get h
        exact inv_transport hn hf hpre2.1

theorem insert_facts {s t : DynamicBitVector} {index : Nat} {bit : Bool}
    (hI : Inv s) (h : DynamicBitVector.insert s index bit = Res.ok t) :
    Inv t :=
  insertGo_facts DynamicBitVector.FUEL
    (Sum.inl (s, s.root, index, bit)) hI h

/-! ### Delete and flip preserve the invariant -/

theorem swapRemoveLeaf_not_ok {s : DynamicBitVector} {leaf : Int}
    {t : DynamicBitVector}
    (hP : ptrOk s) (hlt : s.nodes.length < s.leafs.length)
    (h : DynamicBitVector.swapRemoveLeaf s leaf = Res.ok t) : False := by
  unfold DynamicBitVector.swapRemoveLeaf at h
  simp only [] at h
  obtain ⟨side, hside, h⟩ := Res.bind_ok h
  unfold DynamicBitVector.getLeafSide at hside
  obtain ⟨l, hlg, hside⟩ := Res.bind_ok hside
  obtain ⟨p, hpg, hside⟩ := Res.bind_ok hside
  split at hside
  · rename_i hc
    have hb := (hP l.parent p (getNode_ok hpg)).1 _ hc (by omega)
    omega
  · split at hside
    · rename_i hc1 hc
      have hb := (hP l.parent p (getNode_ok hpg)).2 _ hc (by omega)
      omega
    · exact Res.noConfusion hside

theorem mergeLeafs_not_ok {fuel : Nat} {s : DynamicBitVector}
    {smallLeaf : Int} {nb : Side Int} {t : DynamicBitVector}
    (hP : ptrOk s) (hlt : s.nodes.length < s.leafs.length)
    (h : DynamicBitVector.mergeLeafs fuel s smallLeaf nb = Res.ok t) :
    False := by
  unfold DynamicBitVector.mergeLeafs at h
  simp only [] at h
  obtain ⟨leaf, hleaf, h⟩ := Res.bind_ok h
  split at h
  · obtain ⟨tgt, htgt, h⟩ := Res.bind_ok h
    obtain ⟨tgt2, htgt2, h⟩ := Res.bind_ok h
    obtain ⟨s1, h1, h⟩ := Res.bind_ok h
    obtain ⟨s2, h2, h⟩ := Res.bind_ok h
    obtain ⟨s3, h3, h⟩ := Res.bind_ok h
    obtain ⟨hn1, hf1⟩ := modifyLeaf_same h1
    obtain ⟨g2ne, _, g2L, g2F⟩ := modifyNode_get h2
    have hP1 : ptrOk s1 := ptrOk_transport hn1 hP
    have hP2 : ptrOk s2 := ptrOk_step h2 (fun m hg => hP1 _ m hg) hP1
    refine swapRemoveLeaf_not_ok hP2 ?_ h3
    rw [g2L, g2F, hn1, hf1]
    exact hlt
  · obtain ⟨tgt, htgt, h⟩ := Res.bind_ok h
    obtain ⟨tgt2, htgt2, h⟩ := Res.bind_ok h
    obtain ⟨s1, h1, h⟩ := Res.bind_ok h
    obtain ⟨s2, h2, h⟩ := Res.bind_ok h
    obtain ⟨s3, h3, h⟩ := Res.bind_ok h
    obtain ⟨hn1, hf1⟩ := modifyLeaf_same h1
    obtain ⟨g2ne, _, g2L, g2F⟩ := modifyNode_get h2
    have hP1 : ptrOk s1 := ptrOk_transport hn1 hP
    have hP2 : ptrOk s2 := ptrOk_step h2 (fun m hg => hP1 _ m hg) hP1
    refine swapRemoveLeaf_not_ok hP2 ?_ h3
    rw [g2L, g2F, hn1, hf1]
    exact hlt

theorem mergeAway_facts {fuel : Nat} {s : DynamicBitVector} {leaf : Int}
    {t : DynamicBitVector}
    (hI : Inv s) (hneg : leaf < 0)
    (h : DynamicBitVector.mergeAway fuel s leaf = Res.ok t) : Inv t := by
  unfold DynamicBitVector.mergeAway at h
  simp only [] at h
  obtain ⟨onb, honb, h⟩ := Res.bind_ok h
  split at h
  · rename_i nb
    obtain ⟨nlf, hnlf, h⟩ := Res.bind_ok h
    split at h
    · obtain ⟨lf, hlf, h⟩ := Res.bind_ok h
      obtain ⟨s1, h1, h⟩ := Res.bind_ok h
      have hlt : s.nodes.length < s.leafs.length := by
        have ha := (List.get?_eq_some.mp (getLeaf_ok hlf)).1
        have hb := hI.2.2.2 (by omega)
        omega
      exact (mergeLeafs_not_ok hI.2.1 hlt h1).elim
    · obtain ⟨stolen, hst, h⟩ := Res.bind_ok h
      split at h
      · rename_i r
        obtain ⟨tgt, htgt, h⟩ := Res.bind_ok h
        obtain ⟨pr, hpr, h⟩ := Res.bind_ok h
        obtain ⟨s1, h1, h⟩ := Res.bind_ok h
        obtain ⟨hn1, hf1⟩ := modifyLeaf_same h1
        obtain ⟨lf, hlf, h⟩ := Res.bind_ok h
        obtain ⟨lf2, hlf2, h⟩ := Res.bind_ok h
        obtain ⟨s2, h2, h⟩ := Res.bind_ok h
        obtain ⟨hn2, hf2⟩ := modifyLeaf_same h2
        obtain ⟨lf3, hlf3, h⟩ := Res.bind_ok h
        obtain ⟨s3, h3, h⟩ := Res.bind_ok h
        obtain ⟨u1, u2, u3, u4, _⟩ := updateLeftValues_facts _ h3
        obtain ⟨nlf2, hnlf2, h⟩ := Res.bind_ok h
        obtain ⟨v1, v2, v3, v4, _⟩ := updateLeftValues_facts _ h
        have hI2 : Inv s2 := inv_transport hn2 hf2 (inv_transport hn1 hf1 hI)
        have hI3 : Inv s3 := by
          refine ⟨u3 hI2.1, u4 hI2.2.1, ?_, ?_⟩
          · rw [u1, show s3.leafs = s2.leafs from u2]
            exact hI2.2.2.1
          · rw [u1, show s3.leafs = s2.leafs from u2]
            exact hI2.2.2.2
        refine ⟨v3 hI3.1, v4 hI3.2.1, ?_, ?_⟩
        · rw [v1, show t.leafs = s3.leafs from v2]
          exact hI3.2.2.1
        · rw [v1, show t.leafs = s3.leafs from v2]
          exact hI3.2.2.2
      · rename_i lft
        obtain ⟨tgt, htgt, h⟩ := Res.bind_ok h
        obtain ⟨s1, h1, h⟩ := Res.bind_ok h
        obtain ⟨hn1, hf1⟩ := modifyLeaf_same h1
        obtain ⟨lf, hlf, h⟩ := Res.bind_ok h
        obtain ⟨lf2, hlf2, h⟩ := Res.bind_ok h
        obtain ⟨s2, h2, h⟩ := Res.bind_ok h
        obtain ⟨hn2, hf2⟩ := modifyLeaf_same h2
        obtain ⟨lf3, hlf3, h⟩ := Res.bind_ok h
        obtain ⟨s3, h3, h⟩ := Res.bind_ok h
        obtain ⟨u1, u2, u3, u4, _⟩ := updateLeftValues_facts _ h3
        obtain ⟨nlf2, hnlf2, h⟩ := Res.bind_ok h
        obtain ⟨v1, v2, v3, v4, _⟩ := updateLeftValues_facts _ h
        have hI2 : Inv s2 := inv_transport hn2 hf2 (inv_transport hn1 hf1 hI)
        have hI3 : Inv s3 := by
          refine ⟨u3 hI2.1, u4 hI2.2.1, ?_, ?_⟩
          · rw [u1, show s3.leafs = s2.leafs from u2]
            exact hI2.2.2.1
          · rw [u1, show s3.leafs = s2.leafs from u2]
            exact hI2.2.2.2
        refine ⟨v3 hI3.1, v4 hI3.2.1, ?_, ?_⟩
        · rw [v1, show t.leafs = s3.leafs from v2]
          exact hI3.2.2.1
        · rw [v1, show t.leafs = s3.leafs from v2]
          exact hI3.2.2.2
  · cases Res.ok_inj h
    exact hI

theorem deleteLeaf_facts {fuel : Nat} {s : DynamicBitVector} {leaf : Int}
    {index : Nat} {t : DynamicBitVector} {lres : Int}
    (hI : Inv s) (hneg : leaf < 0)
    (h : DynamicBitVector.deleteLeaf fuel s leaf index = Res.ok (t, lres)) :
    Inv t := by
  unfold DynamicBitVector.deleteLeaf at h
  simp only [] at h
  obtain ⟨lf, hlf, h⟩ := Res.bind_ok h
  obtain ⟨lf2, hlf2, h⟩ := Res.bind_ok h
  obtain ⟨s1, h1, h⟩ := Res.bind_ok h
  obtain ⟨hn1, hf1⟩ := modifyLeaf_same h1
  obtain ⟨lf3, hlf3, h⟩ := Res.bind_ok h
  have hI1 : Inv s1 := inv_transport hn1 hf1 hI
  split at h
  · obtain ⟨s2, h2, h⟩ := Res.bind_ok h
    have hpair := Res.ok_inj h
    injection hpair with e1 e2
    subst e1
    exact mergeAway_facts hI1 hneg h2
  · obtain ⟨s2, h2, h⟩ := Res.bind_ok h
    cases Res.ok_inj h2
    have hpair := Res.ok_inj h
    injection hpair with e1 e2
    subst e1
    exact hI1

theorem flipLeafOp_facts {s : DynamicBitVector} {leaf : Int} {index : Nat}
    {t : DynamicBitVector} {lres : Int}
    (hI : Inv s) (_hneg : leaf < 0)
    (h : DynamicBitVector.flipLeafOp s leaf index = Res.ok (t, lres)) :
    Inv t := by
  unfold DynamicBitVector.flipLeafOp at h
  obtain ⟨lf, hlf, h⟩ := Res.bind_ok h
  obtain ⟨lf2, hlf2, h⟩ := Res.bind_ok h
  obtain ⟨s1, h1, h⟩ := Res.bind_ok h
  obtain ⟨hn1, hf1⟩ := modifyLeaf_same h1
  have hpair := Res.ok_inj h
  injection hpair with e1 e2
  subst e1
  exact inv_transport hn1 hf1 hI

theorem applyNode_succ
    (f : DynamicBitVector → Int → Nat → Res (DynamicBitVector × Int))
    (n : Nat) (s : DynamicBitVector) (node index : Nat) :
    DynamicBitVector.applyNode (n + 1) f s node index = (do
      let nd ← s.getNode node
      if nd.nums ≤ index then do
        let rid ← unwrapO nd.right
        if 0 ≤ rid then
          DynamicBitVector.applyNode n f s rid.toNat (index - nd.nums)
        else f s rid (index - nd.nums)
      else do
        let lid ← unwrapO nd.left
        if 0 ≤ lid then DynamicBitVector.applyNode n f s lid.toNat index
        else f s lid index) := rfl

theorem applyNode_facts
    {f : DynamicBitVector → Int → Nat → Res (DynamicBitVector × Int)}
    (hf : ∀ s2 lid idx t2 l2, lid < 0 → Inv s2 →
      f s2 lid idx = Res.ok (t2, l2) → Inv t2) :
    ∀ (fuel : Nat) {s : DynamicBitVector} {node index : Nat}
      {t : DynamicBitVector} {lres : Int}, Inv s →
      DynamicBitVector.applyNode fuel f s node index = Res.ok (t, lres) →
      Inv t := by
  intro fuel
  induction fuel with
  | zero =>
    intro s node index t lres hI h
    exact Res.noConfusion h
  | succ n ih =>
    intro s node index t lres hI h
    rw [applyNode_succ] at h
    obtain ⟨nd, hnd, h⟩ := Res.bind_ok h
    split at h
    · obtain ⟨rid, hrid, h⟩ := Res.bind_ok h
      split at h
      · exact ih hI h
      · rename_i hge
        exact hf _ _ _ _ _ (by omega) hI h
    · obtain ⟨lid, hlid, h⟩ := Res.bind_ok h
      split at h
      · exact ih hI h
      · rename_i hge
        exact hf _ _ _ _ _ (by omega) hI h

theorem delete_facts {s t : DynamicBitVector} {index : Nat}
    (hI : Inv s) (h : DynamicBitVector.delete s index = Res.ok t) : Inv t := by
  unfold DynamicBitVector.delete at h
  obtain ⟨p, hp, h⟩ := Res.bind_ok h
  rcases p with ⟨s1, lid⟩
  have hI1 : Inv s1 := applyNode_facts
    (fun s2 lid2 idx t2 l2 hneg hI2 hf2 => deleteLeaf_facts hI2 hneg hf2)
    DynamicBitVector.FUEL hI hp
  obtain ⟨lf, hlf, h⟩ := Res.bind_ok h
  obtain ⟨u1, u2, u3, u4, _⟩ := updateLeftValues_facts _ h
  refine ⟨u3 hI1.1, u4 hI1.2.1, ?_, ?_⟩
  · rw [u1, show t.leafs = s1.leafs from u2]
    exact hI1.2.2.1
  · rw [u1, show t.leafs = s1.leafs from u2]
    exact hI1.2.2.2

theorem flip_facts {s t : DynamicBitVector} {index : Nat}
    (hI : Inv s) (h : DynamicBitVector.flip s index = Res.ok t) : Inv t := by
  unfold DynamicBitVector.flip at h
  obtain ⟨p, hp, h⟩ := Res.bind_ok h
  rcases p with ⟨s1, lid⟩
  have hI1 : Inv s1 := applyNode_facts
    (fun s2 lid2 idx t2 l2 hneg hI2 hf2 => flipLeafOp_facts hI2 hneg hf2)
    DynamicBitVector.FUEL hI hp
  obtain ⟨lf, hlf, h⟩ := Res.bind_ok h
  obtain ⟨u1, u2, u3, u4, _⟩ := updateLeftValues_facts _ h
  refine ⟨u3 hI1.1, u4 hI1.2.1, ?_, ?_⟩
  · rw [u1, show t.leafs = s1.leafs from u2]
    exact hI1.2.2.1
  · rw [u1, show t.leafs = s1.leafs from u2]
    exact hI1.2.2.2

/-! ### The invariant holds in every reachable state -/

theorem inv_new : Inv DynamicBitVector.new := by
  refine ⟨?_, ?_, ?_, ?_⟩
  · intro i nd hm
    cases i with
    | zero =>
      cases Option.some_inj.mp hm
      exact ⟨by decide, fun _ => by decide, fun _ => by decide⟩
    | succ n => exact Option.noConfusion hm
  · intro i nd hm
    cases i with
    | zero =>
      cases Option.some_inj.mp hm
      exact ⟨fun k hk _ => Option.noConfusion hk,
        fun k hk _ => Option.noConfusion hk⟩
    | succ n => exact Option.noConfusion hm
  · exact Nat.le_refl 1
  · intro hcon
    exact absurd hcon (by decide)

theorem checkRanks_of_ranksOk {s : DynamicBitVector} (hR : ranksOk s) :
    checkRanks s = true := by
  unfold checkRanks
  rw [List.all_eq_true]
  intro nd hmem
  obtain ⟨i, hi⟩ := List.mem_iff_get?.mp hmem
  have hq := (hR i nd hi).1
  simp only [decide_eq_true_eq]
  omega

theorem reach_inv {s : DynamicBitVector} (h : Reach s) : Inv s := by
  induction h with
  | base => exact inv_new
  | push hr he ih => exact push_facts ih he
  | insert hr he ih => exact insert_facts ih he
  | delete hr he ih => exact delete_facts ih he
  | flip hr he ih => exact flip_facts ih he

/-- **C4.** The claim states that in every state reachable from a new
`DynamicBitVector` by any sequence of `push`, `insert`, `delete` and `flip`
operations, every node `n` has balance factor `|n.rank| ≤ 1` (invariant
P2).  This holds: the proof carries an inductive invariant (well-formed
balance factors with the two one-sided-child strengthenings, in-bounds
node children, and the node/leaf arena-size relation) through the whole
retrace/rebalance machinery of all four operations; the delete path's
merge branch never completes, because `swap_remove_leaf` asks
`get_leaf_side` about the positive raw slot index `leafs.len() - 1`,
which under the invariant can match no child pointer, so only the steal
and no-neighbor branches contribute. -/
theorem C4_rank_invariant_holds_in_reachable_states :
    ∀ s : DynamicBitVector, Reach s → checkRanks s = true :=
  fun _ h => checkRanks_of_ranksOk (reach_inv h).1

/-- Non-vacuity witness for C4: the concrete state reached by
`push(1); push(0)` passes the rank check. -/
theorem C4_rank_invariant_holds_in_reachable_states_witness :
    checkRanks ⟨0, [⟨none, none, some (-1), 0, 0, 1⟩],
      [⟨0, 0, 0⟩, ⟨0, 1, 2⟩]⟩ = true :=
  C4_rank_invariant_holds_in_reachable_states _
    (Reach.push (Reach.push Reach.base
      (by decide : DynamicBitVector.push DynamicBitVector.new true =
        Res.ok ⟨0, [⟨none, none, some (-1), 0, 0, 1⟩],
          [⟨0, 0, 0⟩, ⟨0, 1, 1⟩]⟩))
      (by decide : DynamicBitVector.push
        (⟨0, [⟨none, none, some (-1), 0, 0, 1⟩],
          [⟨0, 0, 0⟩, ⟨0, 1, 1⟩]⟩ : DynamicBitVector) false =
        Res.ok ⟨0, [⟨none, none, some (-1), 0, 0, 1⟩],
          [⟨0, 0, 0⟩, ⟨0, 1, 2⟩]⟩))

end Confertus
